import Mathlib

/-!
Verification of the dag-map library (src/dag-map.js): a topologically
ordered map of key/value pairs.  The JavaScript classes `DAG`, `Vertices`
and `IntStack` are embedded shallowly below: vertices become a list of
`Vertex` records, the three IntStack scratch buffers become lists, and
every method becomes a pure function threading the store state.  Methods
that `throw` return the mutated store paired with an `Option DagError`
(JavaScript mutates in place, so the state at the moment of the throw is
observable and must be preserved by the embedding).
-/

namespace DagMap

/-- Errors thrown by the library: an invalid (empty/absent) key with the
message used at the throw site, or a cycle error carrying the list of keys
of the reported dependency chain.  The source builds the message string
"cycle detected: k0 <- k1 <- ..." from exactly this chain, so the chain
list determines the thrown message. -/
inductive DagError where
  | invalidKey (msg : String)
  | cycle (chain : List String)
deriving DecidableEq

/-- A vertex record: `idx` the creation index, `key` its key, `val` its
payload (`none` embeds the JS `undefined`), `out` the has-successor flag,
`flag` the transient visited mark, and `preds` the ordered predecessor
index list (the numbered slots `w[0..w.length-1]` of the source). -/
structure Vertex (V : Type) where
  idx : Nat
  key : String
  val : Option V
  out : Bool
  flag : Bool
  preds : List Nat
deriving DecidableEq

/-- The vertex store together with its scratch buffers.  `stack` models
the DFS IntStack with the head of the list as the top of the stack; it
holds signed entries (`~i` marks an exit).  `path` and `result` model the
other two IntStacks in bottom-to-top order; the source only ever pushes
non-negative numbers on them, so they are lists of `Nat`. -/
structure Vertices (V : Type) where
  verts : List (Vertex V)
  stack : List Int
  path : List Nat
  result : List Nat
deriving DecidableEq

/-- The empty store (`new DAG()`). -/
def emptyDag (V : Type) : Vertices V := ⟨[], [], [], []⟩

/-- JavaScript bitwise complement `~n` on integers. -/
def intNot (n : Int) : Int := -(n + 1)

/-- Replace the element at position `i` by `f` of it (in-place field
mutation of one vertex in the store). -/
def modifyAt (f : α → α) : List α → Nat → List α
  | [], _ => []
  | a :: l, 0 => f a :: l
  | a :: l, n + 1 => a :: modifyAt f l n

/-- The key of the vertex at index `i` (the source reads `this[i].key`;
out-of-range reads never happen on the paths the source exercises and are
totalized to the empty string). -/
def keyAt (verts : List (Vertex V)) (i : Nat) : String :=
  match verts[i]? with
  | some u => u.key
  | none => ""

/-- The payload of the vertex at index `i`. -/
def valAt (verts : List (Vertex V)) (i : Nat) : Option V :=
  match verts[i]? with
  | some u => u.val
  | none => none

/-- The predecessor list of the vertex at index `i`. -/
def predsAt (verts : List (Vertex V)) (i : Nat) : List Nat :=
  match verts[i]? with
  | some u => u.preds
  | none => []

/-- The `idx` field of the vertex at index `i`. -/
def idxAt (verts : List (Vertex V)) (i : Nat) : Nat :=
  match verts[i]? with
  | some u => u.idx
  | none => i

/-- The has-successor flag of the vertex at index `i`. -/
def outAt (verts : List (Vertex V)) (i : Nat) : Bool :=
  match verts[i]? with
  | some u => u.out
  | none => false

/-- The visited flag of the vertex at index `i`. -/
def flagAt (verts : List (Vertex V)) (i : Nat) : Bool :=
  match verts[i]? with
  | some u => u.flag
  | none => false

/-- The test `!this[index].flag` performed by `pushIncoming` before
pushing a predecessor (an out-of-range index is never pushed). -/
def notFlagged (verts : List (Vertex V)) (i : Nat) : Bool :=
  match verts[i]? with
  | some u => !u.flag
  | none => false

/-- `Vertices.prototype.add(key)`: throw on an empty key, otherwise scan
the store in insertion order for an existing vertex with this key and
return its index, or append a fresh vertex (index = current count, value
`undefined`, no predecessors, no flags).  Returns the (possibly grown)
store, the index of the vertex, and the error if one was thrown. -/
def Vertices.add (s : Vertices V) (key : String) :
    (Vertices V × Nat) × Option DagError :=
  if key = "" then ((s, 0), some (DagError.invalidKey ("missing key")))
  else
    match s.verts.findIdx? (fun vt => vt.key = key) with
    | some i => ((s, i), none)
    | none =>
      ((⟨s.verts ++ [⟨s.verts.length, key, none, false, false, []⟩],
         s.stack, s.path, s.result⟩, s.verts.length), none)

/-- `Vertices.prototype.reset()`: clear the three scratch stacks and all
visited flags. -/
def Vertices.reset (s : Vertices V) : Vertices V :=
  ⟨s.verts.map (fun vt => { vt with flag := false }), [], [], []⟩

/-- `Vertices.prototype.pushIncoming(incomming)`: push the not-yet-visited
predecessors of a vertex onto the DFS stack, in reverse listed order, so
that they are popped in listed order.  With the head-is-top list encoding
this is a filter-map prepended to the stack. -/
def Vertices.pushIncoming (verts : List (Vertex V)) (vertex : Vertex V)
    (stack : List Int) : List Int :=
  ((vertex.preds.filter (notFlagged verts)).map Int.ofNat) ++ stack

/-- Count of vertices whose visited flag is clear; the termination measure
of the DFS loop. -/
def unflaggedCount (verts : List (Vertex V)) : Nat :=
  (verts.filter (fun vt => !vt.flag)).length

theorem unflaggedCount_modifyAt_lt (verts : List (Vertex V)) (i : Nat)
    (u : Vertex V) (hu : verts[i]? = some u) (hf : u.flag = false) :
    unflaggedCount (modifyAt (fun vt => { vt with flag := true }) verts i)
      < unflaggedCount verts := by
  induction verts generalizing i with
  | nil => simp at hu
  | cons a l ih =>
    cases i with
    | zero =>
      simp at hu
      subst hu
      simp [modifyAt, unflaggedCount, hf, List.filter]
    | succ n =>
      simp at hu
      have h := ih n hu
      simp only [modifyAt, unflaggedCount, List.filter]
      cases hcond : (!a.flag) with
      | false => simpa [unflaggedCount] using h
      | true => simpa [unflaggedCount] using Nat.succ_lt_succ h

/-- The while-loop body of `Vertices.prototype.visit(start, search)`.
Non-negative stack entries are "enter" records: an unvisited vertex is
flagged, pushed on `path`, compared against `search` (a match breaks out
of the loop), and then its exit marker `~index` and its unvisited
predecessors are pushed.  Negative entries are "exit" records: the vertex
is popped from `path` and appended to `result`. -/
def Vertices.visitLoop (s : Vertices V) (search : String) : Vertices V :=
  match hstk : s.stack with
  | [] => s
  | index :: rest =>
    if hpos : 0 ≤ index then
      if hval : index.toNat < s.verts.length then
        if hfl : (s.verts[index.toNat]).flag then
          Vertices.visitLoop ⟨s.verts, rest, s.path, s.result⟩ search
        else
          if search = (s.verts[index.toNat]).key then
            ⟨modifyAt (fun vt => { vt with flag := true }) s.verts index.toNat,
             rest, s.path ++ [index.toNat], s.result⟩
          else
            Vertices.visitLoop
              ⟨modifyAt (fun vt => { vt with flag := true }) s.verts index.toNat,
               Vertices.pushIncoming
                 (modifyAt (fun vt => { vt with flag := true }) s.verts index.toNat)
                 (s.verts[index.toNat]) (intNot index :: rest),
               s.path ++ [index.toNat], s.result⟩ search
      else Vertices.visitLoop ⟨s.verts, rest, s.path, s.result⟩ search
    else
      Vertices.visitLoop
        ⟨s.verts, rest, s.path.dropLast, s.result ++ [(intNot index).toNat]⟩ search
termination_by (unflaggedCount s.verts, s.stack.length)
decreasing_by
  · apply Prod.Lex.right
    simp [hstk]
  · apply Prod.Lex.left
    apply unflaggedCount_modifyAt_lt s.verts index.toNat (s.verts[index.toNat])
      (List.getElem?_eq_getElem hval)
    simpa using hfl
  · apply Prod.Lex.right
    simp [hstk]
  · apply Prod.Lex.right
    simp [hstk]

/-- `Vertices.prototype.visit(start, search)`: push the start index and
run the loop. -/
def Vertices.visit (s : Vertices V) (start : Nat) (search : String) : Vertices V :=
  Vertices.visitLoop ⟨s.verts, Int.ofNat start :: s.stack, s.path, s.result⟩ search

/-- `Vertices.prototype.check(v, w)`: the three-tier cycle check run
before committing an edge from the vertex at `vIdx` to the vertex whose
key is `w`.  Tier (a): the keys already match.  Tier (b): a direct
predecessor of `v` has key `w`.  Tier (c): reset and run a depth-first
search from `v` for the key `w`; a non-empty `path` afterwards means the
key was found and the chain `w` followed by the keys on `path` is
reported. -/
def Vertices.check (s : Vertices V) (vIdx : Nat) (w : String) :
    Vertices V × Option DagError :=
  match s.verts[vIdx]? with
  | none => (s, none)
  | some v =>
    if v.key = w then (s, some (DagError.cycle [w, w]))
    else if v.preds.length = 0 then (s, none)
    else if v.preds.any (fun p => keyAt s.verts p = w) then
      (s, some (DagError.cycle [w, v.key, w]))
    else
      let s1 := Vertices.visit (Vertices.reset s) vIdx w
      if s1.path.length = 0 then (s1, none)
      else (s1, some (DagError.cycle (w :: s1.path.map (keyAt s1.verts))))

/-- `Vertices.prototype.addEdge(v, w)`: run the cycle check, then append
`v.idx` to `w`'s predecessor list unless already present, and mark `v` as
having a successor. -/
def Vertices.addEdge (s : Vertices V) (vIdx wIdx : Nat) :
    Vertices V × Option DagError :=
  match Vertices.check s vIdx (keyAt s.verts wIdx) with
  | (s1, some e) => (s1, some e)
  | (s1, none) =>
    if idxAt s1.verts vIdx ∈ predsAt s1.verts wIdx then (s1, none)
    else
      (⟨modifyAt (fun vt => { vt with out := true })
          (modifyAt (fun vt => { vt with preds := vt.preds ++ [idxAt s1.verts vIdx] })
            s1.verts wIdx) vIdx,
        s1.stack, s1.path, s1.result⟩, none)

/-- The body of the root loop of `walk`: skip the vertex if it has a
successor, otherwise run a depth-first visit rooted at it, with the empty
string as the (never matched) search key. -/
def walkStep (st : Vertices V) (i : Nat) : Vertices V :=
  if outAt st.verts i then st else Vertices.visit st i ""

/-- `Vertices.prototype.walk(cb)` without the final emission: reset, then
apply the root step to each vertex index in insertion order. -/
def Vertices.walk (s : Vertices V) : Vertices V :=
  (List.range s.verts.length).foldl walkStep (Vertices.reset s)

/-- `Vertices.prototype.each(indices, cb)`: the (key, value) pairs handed
to the callback for each listed vertex index, in order. -/
def Vertices.eachKV (verts : List (Vertex V)) (indices : List Nat) :
    List (String × Option V) :=
  indices.map (fun i => (keyAt verts i, valAt verts i))

/-- The full output of `walk`/`each`: the pairs emitted over the `result`
buffer after the traversal. -/
def walkOutput (s : Vertices V) : List (String × Option V) :=
  Vertices.eachKV (Vertices.walk s).verts (Vertices.walk s).result

/-- The shape of the `before`/`after` parameter of `DAG.add`: absent
(`undefined`), a single string key, or an array of string keys. -/
inductive KeyArg where
  | undef
  | one (k : String)
  | many (ks : List String)
deriving DecidableEq

/-- The `before` loop of `DAG.prototype.add`: for each key in the array,
resolve it (creating a placeholder) and add an edge from the added vertex
to it, stopping at the first thrown error. -/
def addEdgesBefore (s : Vertices V) (vIdx : Nat) :
    List String → Vertices V × Option DagError
  | [] => (s, none)
  | k :: rest =>
    match Vertices.add s k with
    | ((s1, _), some e) => (s1, some e)
    | ((s1, wIdx), none) =>
      match Vertices.addEdge s1 vIdx wIdx with
      | (s2, some e) => (s2, some e)
      | (s2, none) => addEdgesBefore s2 vIdx rest

/-- The `after` loop of `DAG.prototype.add`: for each key in the array,
resolve it and add an edge from it to the added vertex, stopping at the
first thrown error. -/
def addEdgesAfter (s : Vertices V) (vIdx : Nat) :
    List String → Vertices V × Option DagError
  | [] => (s, none)
  | k :: rest =>
    match Vertices.add s k with
    | ((s1, _), some e) => (s1, some e)
    | ((s1, wIdx), none) =>
      match Vertices.addEdge s1 wIdx vIdx with
      | (s2, some e) => (s2, some e)
      | (s2, none) => addEdgesAfter s2 vIdx rest

/-- The `if (before)` block of `DAG.prototype.add`.  A JS falsy value
(absent, or the empty string) is skipped silently; a non-empty string is
a single edge; an array (always truthy) is looped over. -/
def processBefore (s : Vertices V) (vIdx : Nat) :
    KeyArg → Vertices V × Option DagError
  | KeyArg.undef => (s, none)
  | KeyArg.one k =>
    if k = "" then (s, none)
    else
      match Vertices.add s k with
      | ((s1, _), some e) => (s1, some e)
      | ((s1, wIdx), none) => Vertices.addEdge s1 vIdx wIdx
  | KeyArg.many ks => addEdgesBefore s vIdx ks

/-- The `if (after)` block of `DAG.prototype.add`. -/
def processAfter (s : Vertices V) (vIdx : Nat) :
    KeyArg → Vertices V × Option DagError
  | KeyArg.undef => (s, none)
  | KeyArg.one k =>
    if k = "" then (s, none)
    else
      match Vertices.add s k with
      | ((s1, _), some e) => (s1, some e)
      | ((s1, wIdx), none) => Vertices.addEdge s1 wIdx vIdx
  | KeyArg.many ks => addEdgesAfter s vIdx ks

/-- `DAG.prototype.add(key, value, before, after)`: reject an empty key,
resolve/create the vertex for `key`, assign its value unconditionally,
then process the `before` and `after` constraints in order, stopping at
the first thrown error and returning the store as mutated up to that
point. -/
def DAG.add (s : Vertices V) (key : String) (value : Option V)
    (before after : KeyArg) : Vertices V × Option DagError :=
  if key = "" then
    (s, some (DagError.invalidKey ("argument `key` is required")))
  else
    match Vertices.add s key with
    | ((s1, _), some e) => (s1, some e)
    | ((s1, vIdx), none) =>
      let s2 : Vertices V :=
        ⟨modifyAt (fun vt => { vt with val := value }) s1.verts vIdx,
         s1.stack, s1.path, s1.result⟩
      match processBefore s2 vIdx before with
      | (s3, some e) => (s3, some e)
      | (s3, none) => processAfter s3 vIdx after

/-- `DAG.prototype.each(callback)`: run `walk` and return the mutated
store together with the emitted (key, value) pairs. -/
def DAG.each (s : Vertices V) : Vertices V × List (String × Option V) :=
  (Vertices.walk s, walkOutput s)

/-- One recorded `add` call. -/
structure AddOp (V : Type) where
  key : String
  value : Option V
  before : KeyArg
  after : KeyArg

/-- The store built by a sequence of `add` calls starting from a fresh
`DAG`; a call that throws still leaves its partial mutations in place,
exactly as in the source. -/
def build (ops : List (AddOp V)) : Vertices V :=
  ops.foldl (fun s op => (DAG.add s op.key op.value op.before op.after).1)
    (emptyDag V)

/-! ### The persistent projection

The visited flag is transient scratch state (cleared by every `reset`);
the persistent content of the store is everything else.  `strip` clears
the flags, so two vertex lists have the same persistent content exactly
when their `strip`s agree. -/

/-- The persistent content of the vertex list: all fields except the
transient visited flag. -/
def strip (verts : List (Vertex V)) : List (Vertex V) :=
  verts.map (fun vt => { vt with flag := false })

theorem modifyAt_length (f : α → α) (l : List α) (i : Nat) :
    (modifyAt f l i).length = l.length := by
  induction l generalizing i with
  | nil => rfl
  | cons a t ih =>
    cases i with
    | zero => rfl
    | succ n => simpa [modifyAt] using ih n

theorem getElem?_modifyAt_ne (f : α → α) (l : List α) {i j : Nat} (h : j ≠ i) :
    (modifyAt f l i)[j]? = l[j]? := by
  induction l generalizing i j with
  | nil => rfl
  | cons a t ih =>
    cases i with
    | zero =>
      cases j with
      | zero => exact absurd rfl h
      | succ m => simp [modifyAt]
    | succ n =>
      cases j with
      | zero => simp [modifyAt]
      | succ m => simpa [modifyAt] using ih (fun hc => h (by omega))

theorem getElem?_modifyAt_self (f : α → α) (l : List α) (i : Nat) :
    (modifyAt f l i)[i]? = (l[i]?).map f := by
  induction l generalizing i with
  | nil => rfl
  | cons a t ih =>
    cases i with
    | zero => simp [modifyAt]
    | succ n => simpa [modifyAt] using ih n

theorem strip_length (a b : List (Vertex V)) (h : strip a = strip b) :
    a.length = b.length := by
  have := congrArg List.length h
  simpa [strip] using this

theorem strip_fields (a b : List (Vertex V)) (h : strip a = strip b) (i : Nat) :
    keyAt a i = keyAt b i ∧ predsAt a i = predsAt b i ∧ valAt a i = valAt b i ∧
      outAt a i = outAt b i ∧ idxAt a i = idxAt b i := by
  have hpt : (a[i]?).map (fun vt => { vt with flag := false })
      = (b[i]?).map (fun vt => { vt with flag := false }) := by
    have := congrArg (fun l => l[i]?) h
    simpa [strip] using this
  cases ha : a[i]? with
  | none =>
    cases hb : b[i]? with
    | none => simp [keyAt, predsAt, valAt, outAt, idxAt, ha, hb]
    | some u => rw [ha, hb] at hpt; simp at hpt
  | some u =>
    cases hb : b[i]? with
    | none => rw [ha, hb] at hpt; simp at hpt
    | some u2 =>
      rw [ha, hb] at hpt
      simp only [Option.map_some', Option.some.injEq, Vertex.mk.injEq] at hpt
      obtain ⟨h1, h2, h3, h4, _, h5⟩ := hpt
      simp [keyAt, predsAt, valAt, outAt, idxAt, ha, hb, h1, h2, h3, h4, h5]

theorem strip_modifyAt_flag (verts : List (Vertex V)) (i : Nat) :
    strip (modifyAt (fun vt => { vt with flag := true }) verts i) = strip verts := by
  induction verts generalizing i with
  | nil => rfl
  | cons a l ih =>
    cases i with
    | zero => simp [modifyAt, strip]
    | succ n => simpa [modifyAt, strip] using ih n

theorem strip_reset (s : Vertices V) : strip (Vertices.reset s).verts = strip s.verts := by
  simp [Vertices.reset, strip]

theorem reset_eq (s : Vertices V) : Vertices.reset s = ⟨strip s.verts, [], [], []⟩ := rfl

theorem flagAt_modifyFlag_self (verts : List (Vertex V)) (i : Nat)
    (h : i < verts.length) :
    flagAt (modifyAt (fun vt => { vt with flag := true }) verts i) i = true := by
  simp [flagAt, getElem?_modifyAt_self, List.getElem?_eq_getElem h]

theorem flagAt_modifyFlag_ne (verts : List (Vertex V)) {i j : Nat} (h : j ≠ i) :
    flagAt (modifyAt (fun vt => { vt with flag := true }) verts i) j = flagAt verts j := by
  simp [flagAt, getElem?_modifyAt_ne _ _ h]

theorem flagAt_modifyFlag_mono (verts : List (Vertex V)) (i j : Nat)
    (h : flagAt verts j = true) :
    flagAt (modifyAt (fun vt => { vt with flag := true }) verts i) j = true := by
  rcases eq_or_ne j i with rfl | hne
  · cases hj : verts[j]? with
    | none => simp [flagAt, hj] at h
    | some u =>
      have : j < verts.length := by
        rcases List.getElem?_eq_some_iff.mp hj with ⟨hlt, _⟩
        exact hlt
      exact flagAt_modifyFlag_self verts j this
  · rw [flagAt_modifyFlag_ne verts hne]; exact h

theorem notFlagged_iff (verts : List (Vertex V)) (j : Nat) :
    notFlagged verts j = true ↔ j < verts.length ∧ flagAt verts j = false := by
  cases hj : verts[j]? with
  | none =>
    have hge : ¬ j < verts.length := by
      intro hlt
      rw [List.getElem?_eq_getElem hlt] at hj
      exact Option.noConfusion hj
    simp [notFlagged, hj, hge]
  | some u =>
    have hlt : j < verts.length := by
      rcases List.getElem?_eq_some_iff.mp hj with ⟨h, _⟩
      exact h
    simp [notFlagged, hj, flagAt, hlt]

theorem keyAt_eq_of_strip {a b : List (Vertex V)} (h : strip a = strip b) (i : Nat) :
    keyAt a i = keyAt b i := (strip_fields a b h i).1

theorem predsAt_eq_of_strip {a b : List (Vertex V)} (h : strip a = strip b) (i : Nat) :
    predsAt a i = predsAt b i := (strip_fields a b h i).2.1

theorem valAt_eq_of_strip {a b : List (Vertex V)} (h : strip a = strip b) (i : Nat) :
    valAt a i = valAt b i := (strip_fields a b h i).2.2.1

theorem outAt_eq_of_strip {a b : List (Vertex V)} (h : strip a = strip b) (i : Nat) :
    outAt a i = outAt b i := (strip_fields a b h i).2.2.2.1

theorem idxAt_eq_of_strip {a b : List (Vertex V)} (h : strip a = strip b) (i : Nat) :
    idxAt a i = idxAt b i := (strip_fields a b h i).2.2.2.2

/-- Unconditional framing of the DFS loop: the persistent content is
untouched, visited flags only ever get set, and the result buffer is only
appended to. -/
theorem visitLoop_frame (s : Vertices V) (search : String) :
    strip (Vertices.visitLoop s search).verts = strip s.verts ∧
      (∀ i, flagAt s.verts i = true →
        flagAt (Vertices.visitLoop s search).verts i = true) ∧
      (∃ t, (Vertices.visitLoop s search).result = s.result ++ t) := by
  induction s, search using Vertices.visitLoop.induct with
  | case1 s search hstk =>
    rw [Vertices.visitLoop.eq_def, hstk]
    exact ⟨rfl, fun i h => h, [], by simp⟩
  | case2 s search index rest hstk hpos hval hfl ih =>
    rw [Vertices.visitLoop.eq_def, hstk]
    simp only [dif_pos hpos, dif_pos hval, dif_pos hfl]
    exact ih
  | case3 s index rest hstk hpos hval hfl =>
    rw [Vertices.visitLoop.eq_def, hstk]
    simp only [dif_pos hpos, dif_pos hval, dif_neg hfl, if_pos rfl]
    refine ⟨strip_modifyAt_flag s.verts index.toNat, ?_, [], by simp⟩
    exact fun i h => flagAt_modifyFlag_mono s.verts index.toNat i h
  | case4 s search index rest hstk hpos hval hfl heq ih =>
    rw [Vertices.visitLoop.eq_def, hstk]
    simp only [dif_pos hpos, dif_pos hval, dif_neg hfl, if_neg heq]
    obtain ⟨h1, h2, h3⟩ := ih
    refine ⟨h1.trans (strip_modifyAt_flag s.verts index.toNat), ?_, h3⟩
    exact fun i h => h2 i (flagAt_modifyFlag_mono s.verts index.toNat i h)
  | case5 s search index rest hstk hpos hval ih =>
    rw [Vertices.visitLoop.eq_def, hstk]
    simp only [dif_pos hpos, dif_neg hval]
    exact ih
  | case6 s search index rest hstk hpos ih =>
    rw [Vertices.visitLoop.eq_def, hstk]
    simp only [dif_neg hpos]
    obtain ⟨h1, h2, t, ht⟩ := ih
    exact ⟨h1, h2, (intNot index).toNat :: t, by simpa using ht⟩

/-! ### The precedence graph -/

/-- The committed precedence relation: `Edge verts p s` holds when `p` is
listed among the predecessors of the vertex at index `s` (so `p` must be
emitted before `s`). -/
def Edge (verts : List (Vertex V)) (p s : Nat) : Prop := p ∈ predsAt verts s

/-- Direct dependency, the step relation followed by the cycle check:
`Dep verts a b` holds when `b` is a predecessor of `a`. -/
def Dep (verts : List (Vertex V)) (a b : Nat) : Prop := b ∈ predsAt verts a

/-- The vertex at `a` transitively depends on (or is) the vertex at `b`:
`b` is reachable from `a` by following predecessor edges. -/
def Reaches (verts : List (Vertex V)) (a b : Nat) : Prop :=
  Relation.ReflTransGen (Dep verts) a b

/-- The predecessor relation, transitively closed, has no cycle. -/
def Acyclic (verts : List (Vertex V)) : Prop :=
  ∀ i, ¬ Relation.TransGen (Edge verts) i i

/-- The invariants of the persistent part of the store, maintained by
every `add` call (also by the failing ones). -/
structure GInv (verts : List (Vertex V)) : Prop where
  idx_eq : ∀ i, idxAt verts i = i
  key_ne : ∀ i, i < verts.length → keyAt verts i ≠ ""
  key_uniq : ∀ i j, i < verts.length → j < verts.length →
    keyAt verts i = keyAt verts j → i = j
  preds_lt : ∀ i p, p ∈ predsAt verts i → p < verts.length
  out_iff : ∀ i, i < verts.length → (outAt verts i = true ↔ ∃ j, Edge verts i j)
  acyclic : Acyclic verts

theorem predsAt_eq_getElem (verts : List (Vertex V)) (i : Nat)
    (h : i < verts.length) : predsAt verts i = (verts[i]).preds := by
  simp [predsAt, List.getElem?_eq_getElem h]

theorem keyAt_eq_getElem (verts : List (Vertex V)) (i : Nat)
    (h : i < verts.length) : keyAt verts i = (verts[i]).key := by
  simp [keyAt, List.getElem?_eq_getElem h]

theorem flagAt_eq_getElem (verts : List (Vertex V)) (i : Nat)
    (h : i < verts.length) : flagAt verts i = (verts[i]).flag := by
  simp [flagAt, List.getElem?_eq_getElem h]

theorem outAt_eq_getElem (verts : List (Vertex V)) (i : Nat)
    (h : i < verts.length) : outAt verts i = (verts[i]).out := by
  simp [outAt, List.getElem?_eq_getElem h]

theorem intNot_neg (v : Nat) : intNot (Int.ofNat v) < 0 := by
  have h : (0 : Int) ≤ Int.ofNat v := Int.ofNat_nonneg v
  simp only [intNot]
  omega

theorem intNot_intNot (x : Int) : intNot (intNot x) = x := by
  simp [intNot]

theorem intNot_ofNat_toNat (v : Nat) : (intNot (intNot (Int.ofNat v))).toNat = v := by
  rw [intNot_intNot]
  rfl

theorem intNot_inj {x y : Int} (h : intNot x = intNot y) : x = y := by
  simp only [intNot] at h
  omega

/-! ### The stack-shape invariant of the DFS loop

`Frame R verts stack path` describes the well-formed states of the loop in
`visit`: the stack decomposes into segments of pending predecessor
entries, one per open vertex of `path` (in order), separated by the exit
markers of those vertices, on top of a base segment of initial entries
(all satisfying `R`).  Each open vertex's segment still covers all of its
predecessors that are not yet flagged. -/
inductive Frame (R : Nat → Prop) (verts : List (Vertex V)) :
    List Int → List Nat → Prop where
  | base : ∀ pend : List Int,
      (∀ e ∈ pend, ∃ p : Nat, e = Int.ofNat p ∧ p < verts.length ∧ R p) →
      Frame R verts pend []
  | push : ∀ (v : Nat) (pend stack : List Int) (path : List Nat),
      Frame R verts stack path →
      v < verts.length →
      (∀ e ∈ pend, ∃ p : Nat, e = Int.ofNat p ∧ p ∈ predsAt verts v) →
      (∀ p ∈ predsAt verts v, flagAt verts p = true ∨ Int.ofNat p ∈ pend) →
      (path = [] ∨ ∃ u, path.getLast? = some u ∧ v ∈ predsAt verts u) →
      Frame R verts (pend ++ intNot (Int.ofNat v) :: stack) (path ++ [v])

theorem frame_nil {R : Nat → Prop} {verts : List (Vertex V)} {stk : List Int}
    {path : List Nat} (h : Frame R verts stk path) (hstk : stk = []) :
    path = [] := by
  cases h with
  | base _ _ => rfl
  | push v pend stack path0 _ _ _ _ _ => simp at hstk

theorem frame_mono {R : Nat → Prop} {verts verts2 : List (Vertex V)}
    (hlen : verts2.length = verts.length)
    (hpreds : ∀ i, predsAt verts2 i = predsAt verts i)
    (hflag : ∀ i, flagAt verts i = true → flagAt verts2 i = true)
    {stack : List Int} {path : List Nat} (h : Frame R verts stack path) :
    Frame R verts2 stack path := by
  induction h with
  | base pend hp =>
    refine Frame.base pend (fun e he => ?_)
    obtain ⟨p, h1, h2, h3⟩ := hp e he
    exact ⟨p, h1, by omega, h3⟩
  | push v pend stack path0 hin hv hpend hcov hlink ih =>
    refine Frame.push v pend stack path0 ih (by omega) ?_ ?_ ?_
    · intro e he
      obtain ⟨p, h1, h2⟩ := hpend e he
      exact ⟨p, h1, (hpreds v) ▸ h2⟩
    · intro p hp
      rcases hcov p ((hpreds v) ▸ hp) with h | h
      · exact Or.inl (hflag p h)
      · exact Or.inr h
    · rcases hlink with h | ⟨u, h1, h2⟩
      · exact Or.inl h
      · exact Or.inr ⟨u, h1, (hpreds u) ▸ h2⟩

theorem frame_chain {R : Nat → Prop} {verts : List (Vertex V)}
    {stack : List Int} {path : List Nat} (h : Frame R verts stack path) :
    List.Chain' (fun a b => b ∈ predsAt verts a) path := by
  induction h with
  | base pend hp => exact List.chain'_nil
  | push v pend stack path0 hin hv hpend hcov hlink ih =>
    refine List.Chain'.append ih (List.chain'_singleton v) ?_
    intro x hx y hy
    rcases hlink with h | ⟨u, h1, h2⟩
    · rw [h] at hx
      simp at hx
    · rw [h1] at hx
      simp at hx hy
      rw [← hx, ← hy]
      exact h2

theorem frame_path_lt {R : Nat → Prop} {verts : List (Vertex V)}
    {stack : List Int} {path : List Nat} (h : Frame R verts stack path) :
    ∀ i ∈ path, i < verts.length := by
  induction h with
  | base pend hp => simp
  | push v pend stack path0 hin hv hpend hcov hlink ih =>
    intro i hi
    rcases List.mem_append.mp hi with h | h
    · exact ih i h
    · simp at h
      omega

theorem frame_head_valid {R : Nat → Prop} {verts : List (Vertex V)}
    {stk : List Int} {e : Int} {st : List Int} {path : List Nat}
    (hfr : Frame R verts stk path) (hstk : stk = e :: st) (he : 0 ≤ e)
    (hG : ∀ i p, p ∈ predsAt verts i → p < verts.length) :
    e.toNat < verts.length := by
  cases hfr with
  | base pend hp =>
    obtain ⟨p, h1, h2, _⟩ := hp e (by rw [hstk]; simp)
    subst h1
    simpa using h2
  | push v pend stack path0 hin hv hpend hcov hlink =>
    cases pend with
    | nil =>
      simp at hstk
      have h0 : e = intNot (Int.ofNat v) := hstk.1.symm
      subst h0
      exact absurd he (by simpa using intNot_neg v)
    | cons q pendTail =>
      simp at hstk
      obtain ⟨p, h1, h2⟩ := hpend q (by simp)
      rw [hstk.1] at h1
      subst h1
      simpa using hG v p h2

theorem frame_pop_flagged {R : Nat → Prop} {verts : List (Vertex V)}
    {stk : List Int} {e : Int} {st : List Int} {path : List Nat}
    (hfr : Frame R verts stk path) (hstk : stk = e :: st) (he : 0 ≤ e)
    (hflag : flagAt verts e.toNat = true) :
    Frame R verts st path := by
  cases hfr with
  | base pend hp =>
    subst hstk
    exact Frame.base st (fun x hx => hp x (by simp [hx]))
  | push v pend stack path0 hin hv hpend hcov hlink =>
    cases pend with
    | nil =>
      simp at hstk
      have h0 : e = intNot (Int.ofNat v) := hstk.1.symm
      subst h0
      exact absurd he (by simpa using intNot_neg v)
    | cons q pendTail =>
      simp at hstk
      obtain ⟨hq, hst⟩ := hstk
      subst hq
      rw [← hst]
      refine Frame.push v pendTail stack path0 hin hv
        (fun x hx => hpend x (by simp [hx])) ?_ hlink
      intro p hp
      rcases hcov p hp with h | h
      · exact Or.inl h
      · rcases List.mem_cons.mp h with h2 | h2
        · left
          rw [← h2] at hflag
          simpa using hflag
        · exact Or.inr h2

theorem predsAt_modifyFlag (verts : List (Vertex V)) (i j : Nat) :
    predsAt (modifyAt (fun vt => { vt with flag := true }) verts i) j
      = predsAt verts j :=
  predsAt_eq_of_strip (strip_modifyAt_flag verts i) j

theorem keyAt_modifyFlag (verts : List (Vertex V)) (i j : Nat) :
    keyAt (modifyAt (fun vt => { vt with flag := true }) verts i) j
      = keyAt verts j :=
  keyAt_eq_of_strip (strip_modifyAt_flag verts i) j

theorem frame_enter {R : Nat → Prop} {verts : List (Vertex V)}
    {stk : List Int} {e : Int} {st : List Int} {path : List Nat}
    (hfr : Frame R verts stk path) (hstk : stk = e :: st) (he : 0 ≤ e)
    (hval : e.toNat < verts.length)
    (hG : ∀ i p, p ∈ predsAt verts i → p < verts.length) :
    Frame R (modifyAt (fun vt => { vt with flag := true }) verts e.toNat)
      (((predsAt verts e.toNat).filter
          (notFlagged (modifyAt (fun vt => { vt with flag := true }) verts e.toNat))).map
          Int.ofNat ++ intNot e :: st)
      (path ++ [e.toNat])
    ∧ ((path = [] ∧ R e.toNat) ∨
        ∃ u, path.getLast? = some u ∧ e.toNat ∈ predsAt verts u) := by
  have hmlen : (modifyAt (fun vt => { vt with flag := true }) verts e.toNat).length
      = verts.length := modifyAt_length _ _ _
  have hmpreds : ∀ j, predsAt (modifyAt (fun vt => { vt with flag := true }) verts e.toNat) j
      = predsAt verts j := predsAt_modifyFlag verts e.toNat
  have hmflag : ∀ j, flagAt verts j = true →
      flagAt (modifyAt (fun vt => { vt with flag := true }) verts e.toNat) j = true :=
    flagAt_modifyFlag_mono verts e.toNat
  have hcover : ∀ p ∈ predsAt verts e.toNat,
      flagAt (modifyAt (fun vt => { vt with flag := true }) verts e.toNat) p = true ∨
        Int.ofNat p ∈ ((predsAt verts e.toNat).filter
          (notFlagged (modifyAt (fun vt => { vt with flag := true }) verts e.toNat))).map
            Int.ofNat := by
    intro p hp
    cases hfp : flagAt (modifyAt (fun vt => { vt with flag := true }) verts e.toNat) p with
    | true => exact Or.inl rfl
    | false =>
      right
      refine List.mem_map_of_mem Int.ofNat (List.mem_filter.mpr ⟨hp, ?_⟩)
      rw [notFlagged_iff, hmlen]
      exact ⟨hG e.toNat p hp, hfp⟩
  have hentries : ∀ x ∈ ((predsAt verts e.toNat).filter
      (notFlagged (modifyAt (fun vt => { vt with flag := true }) verts e.toNat))).map
        Int.ofNat,
      ∃ p : Nat, x = Int.ofNat p ∧
        p ∈ predsAt (modifyAt (fun vt => { vt with flag := true }) verts e.toNat)
          e.toNat := by
    intro x hx
    obtain ⟨p, hpmem, hpx⟩ := List.mem_map.mp hx
    exact ⟨p, hpx.symm, (hmpreds e.toNat) ▸ List.mem_of_mem_filter hpmem⟩
  have hofe : Int.ofNat e.toNat = e := by
    simpa using Int.toNat_of_nonneg he
  cases hfr with
  | base pend hp =>
    obtain ⟨p, hpe, hplt, hpR⟩ := hp e (by rw [hstk]; simp)
    have hpen : e.toNat = p := by rw [hpe]; rfl
    constructor
    · have hinner : Frame R (modifyAt (fun vt => { vt with flag := true }) verts e.toNat)
          st [] := by
        refine Frame.base st (fun x hx => ?_)
        obtain ⟨p2, h1, h2, h3⟩ := hp x (by rw [hstk]; simp [hx])
        exact ⟨p2, h1, by omega, h3⟩
      have := Frame.push e.toNat
        (((predsAt verts e.toNat).filter
          (notFlagged (modifyAt (fun vt => { vt with flag := true }) verts e.toNat))).map
            Int.ofNat) st [] hinner (by omega) hentries
        (by rw [hmpreds]; exact hcover) (Or.inl rfl)
      rw [hofe] at this
      simpa using this
    · exact Or.inl ⟨rfl, hpen ▸ hpR⟩
  | push v pend stack path0 hin hv hpend hcov hlink =>
    cases pend with
    | nil =>
      simp at hstk
      have h0 : e = intNot (Int.ofNat v) := hstk.1.symm
      subst h0
      exact absurd he (by simpa using intNot_neg v)
    | cons q pendTail =>
      simp at hstk
      obtain ⟨hq, hst⟩ := hstk
      subst hq
      obtain ⟨p, hqe, hpmem⟩ := hpend q (by simp)
      have hpen : q.toNat = p := by rw [hqe]; rfl
      have hinner2 : Frame R (modifyAt (fun vt => { vt with flag := true }) verts q.toNat)
          stack path0 := frame_mono hmlen hmpreds hmflag hin
      have hinnerPush : Frame R
          (modifyAt (fun vt => { vt with flag := true }) verts q.toNat)
          (pendTail ++ intNot (Int.ofNat v) :: stack) (path0 ++ [v]) := by
        refine Frame.push v pendTail stack path0 hinner2 (by omega) ?_ ?_ ?_
        · intro x hx
          obtain ⟨p2, h1, h2⟩ := hpend x (by simp [hx])
          exact ⟨p2, h1, (hmpreds v) ▸ h2⟩
        · intro p2 hp2
          rw [hmpreds] at hp2
          rcases hcov p2 hp2 with h | h
          · exact Or.inl (hmflag p2 h)
          · rcases List.mem_cons.mp h with h2 | h2
            · left
              have hp2e : p2 = q.toNat := by rw [← h2]; rfl
              rw [hp2e]
              exact flagAt_modifyFlag_self verts q.toNat hval
            · exact Or.inr h2
        · rcases hlink with h | ⟨u, h1, h2⟩
          · exact Or.inl h
          · exact Or.inr ⟨u, h1, (hmpreds u) ▸ h2⟩
      constructor
      · have hfin := Frame.push q.toNat
          (((predsAt verts q.toNat).filter
            (notFlagged (modifyAt (fun vt => { vt with flag := true }) verts q.toNat))).map
              Int.ofNat)
          (pendTail ++ intNot (Int.ofNat v) :: stack) (path0 ++ [v]) hinnerPush
          (by omega) hentries (by rw [hmpreds]; exact hcover)
          (Or.inr ⟨v, List.getLast?_concat path0, by rw [hmpreds, hpen]; exact hpmem⟩)
        rw [hofe] at hfin
        have hst2 : pendTail ++ intNot (Int.ofNat v) :: stack = st := hst
        rw [hst2] at hfin
        exact hfin
      · exact Or.inr ⟨v, List.getLast?_concat path0, hpen ▸ hpmem⟩

/-- The result buffer is topologically closed: every predecessor of an
emitted vertex was emitted strictly earlier. -/
def ResOK (verts : List (Vertex V)) (res : List Nat) : Prop :=
  ∀ j, (hj : j < res.length) → ∀ p ∈ predsAt verts res[j],
    ∃ jp, ∃ hjp : jp < res.length, jp < j ∧ res[jp] = p

theorem resOK_congr {verts verts2 : List (Vertex V)}
    (hpreds : ∀ i, predsAt verts2 i = predsAt verts i) {res : List Nat}
    (h : ResOK verts res) : ResOK verts2 res := by
  intro j hj p hp
  exact h j hj p ((hpreds _) ▸ hp)

theorem resOK_append {verts : List (Vertex V)} {res : List Nat} {v : Nat}
    (hres : ResOK verts res) (hcov : ∀ p ∈ predsAt verts v, p ∈ res) :
    ResOK verts (res ++ [v]) := by
  intro j hj p hp
  rcases Nat.lt_or_ge j res.length with hlt | hge
  · rw [List.getElem_append_left hlt] at hp
    obtain ⟨jp, hjp, hlt2, hget⟩ := hres j hlt p hp
    refine ⟨jp, by simp; omega, hlt2, ?_⟩
    rw [List.getElem_append_left hjp]
    exact hget
  · have hjev : j = res.length := by
      simp at hj
      omega
    subst hjev
    have hgv : (res ++ [v])[res.length] = v := by
      rw [List.getElem_append_right (Nat.le_refl _)]
      simp
    rw [hgv] at hp
    obtain ⟨jp, hjp, hget⟩ := List.mem_iff_getElem.mp (hcov p hp)
    refine ⟨jp, by simp; omega, hjp, ?_⟩
    rw [List.getElem_append_left hjp]
    exact hget

theorem resOK_mem {verts : List (Vertex V)} {res : List Nat} {v : Nat}
    (hres : ResOK verts res) (hv : v ∈ res) :
    ∀ p ∈ predsAt verts v, p ∈ res := by
  intro p hp
  obtain ⟨j, hj, hget⟩ := List.mem_iff_getElem.mp hv
  obtain ⟨jp, hjp, _, hget2⟩ := hres j hj p (by rw [hget]; exact hp)
  exact hget2 ▸ List.getElem_mem hjp

theorem acyclic_congr {verts verts2 : List (Vertex V)}
    (hpreds : ∀ i, predsAt verts2 i = predsAt verts i)
    (h : Acyclic verts) : Acyclic verts2 := by
  intro i hcyc
  refine h i (Relation.TransGen.mono ?_ hcyc)
  intro a b hab
  have hab2 : a ∈ predsAt verts2 b := hab
  rw [hpreds b] at hab2
  exact hab2

theorem chain_transGen {α : Type} {r : α → α → Prop} {l : List α}
    (hc : List.Chain' r l) {j k : Nat} (hjk : j < k) (hk : k < l.length) :
    ∀ (hj : j < l.length), Relation.TransGen r l[j] l[k] := by
  intro hj
  induction k with
  | zero => omega
  | succ n ihn =>
    have hrel : r l[n] l[n + 1] := by
      have := List.chain'_iff_get.mp hc n (by omega)
      simpa [List.get_eq_getElem] using this
    rcases Nat.lt_or_ge j n with hlt | hge
    · exact Relation.TransGen.tail (ihn hlt (by omega)) hrel
    · have hje : j = n := by omega
      subst hje
      exact Relation.TransGen.single hrel

/-- A predecessor of the deepest open vertex cannot itself be an open
ancestor: that would close a cycle. -/
theorem chain_path_cycle {verts : List (Vertex V)} (hA : Acyclic verts)
    {path0 : List Nat} {v p : Nat}
    (hchain : List.Chain' (fun a b => b ∈ predsAt verts a) (path0 ++ [v]))
    (hp : p ∈ path0) (hedge : p ∈ predsAt verts v) : False := by
  obtain ⟨j, hj, hget⟩ := List.mem_iff_getElem.mp hp
  have hk : path0.length < (path0 ++ [v]).length := by simp
  have hjlt : j < (path0 ++ [v]).length := by simp; omega
  have htg := chain_transGen hchain hj hk hjlt
  have hgj : (path0 ++ [v])[j] = p := by
    rw [List.getElem_append_left hj]
    exact hget
  have hgk : (path0 ++ [v])[path0.length] = v := by
    rw [List.getElem_append_right (Nat.le_refl _)]
    simp
  rw [hgj, hgk] at htg
  -- htg : TransGen (fun a b => b ∈ preds a) p v, i.e. v reaches p downward
  have htg2 : Relation.TransGen (Edge verts) v p := by
    rw [← Relation.transGen_swap]
    exact Relation.TransGen.mono (fun a b hab => hab) htg
  exact hA v (Relation.TransGen.trans htg2 (Relation.TransGen.single hedge))

theorem frame_exit {R : Nat → Prop} {verts : List (Vertex V)}
    {stk : List Int} {e : Int} {st : List Int} {path : List Nat}
    (hfr : Frame R verts stk path) (hstk : stk = e :: st) (he : e < 0) :
    ∃ v path0, e = intNot (Int.ofNat v) ∧ path = path0 ++ [v] ∧ v < verts.length ∧
      Frame R verts st path0 ∧ ∀ p ∈ predsAt verts v, flagAt verts p = true := by
  cases hfr with
  | base pend hp =>
    obtain ⟨p, h1, _, _⟩ := hp e (by rw [hstk]; simp)
    subst h1
    exact absurd he (by simp [Int.ofNat_nonneg])
  | push v pend stack path0 hin hv hpend hcov hlink =>
    cases pend with
    | nil =>
      simp at hstk
      refine ⟨v, path0, hstk.1.symm, rfl, hv, hstk.2 ▸ hin, ?_⟩
      intro p hp
      rcases hcov p hp with h | h
      · exact h
      · simp at h
    | cons q pendTail =>
      simp at hstk
      obtain ⟨p, h1, _⟩ := hpend q (by simp)
      rw [hstk.1] at h1
      subst h1
      exact absurd he (by simp [Int.ofNat_nonneg])

/-! ### The full loop invariant and the master theorem of the DFS loop -/

/-- The invariant of the running states of the DFS loop: the stack has the
frame shape over the current open path, the flags mark exactly the open or
emitted vertices, the open path and the result are duplicate-free and
disjoint, the result is topologically closed, no flagged vertex carries
the search key (a hit stops the loop at once), and the bottom of the open
path is one of the allowed roots `R`. -/
structure LoopInv (R : Nat → Prop) (search : String) (s : Vertices V) : Prop where
  frame : Frame R s.verts s.stack s.path
  flag_iff : ∀ i, i < s.verts.length →
    (flagAt s.verts i = true ↔ i ∈ s.path ∨ i ∈ s.result)
  path_nd : s.path.Nodup
  res_nd : s.result.Nodup
  disj : ∀ i ∈ s.path, i ∉ s.result
  res_lt : ∀ i ∈ s.result, i < s.verts.length
  res_ok : ResOK s.verts s.result
  no_search : ∀ i, i < s.verts.length → flagAt s.verts i = true →
    keyAt s.verts i ≠ search
  head_R : ∀ u ∈ s.path.head?, R u

/-- The master theorem of the DFS loop: from an invariant state the loop
either drains the stack — entering every pending entry and restoring the
invariant with an empty open path — or breaks on a vertex whose key is the
search key, in which case the final `path` is a predecessor chain from one
of the allowed roots to that vertex. -/
theorem visitLoop_spec {R : Nat → Prop} {search : String} (s : Vertices V)
    (hG : ∀ i p, p ∈ predsAt s.verts i → p < s.verts.length)
    (hA : Acyclic s.verts)
    (hInv : LoopInv R search s) :
    ((Vertices.visitLoop s search).stack = [] ∧
      (Vertices.visitLoop s search).path = [] ∧
      LoopInv R search (Vertices.visitLoop s search) ∧
      (∀ e ∈ s.stack, 0 ≤ e →
        flagAt (Vertices.visitLoop s search).verts e.toNat = true)) ∨
    (∃ u path0, (Vertices.visitLoop s search).path = path0 ++ [u] ∧
      keyAt s.verts u = search ∧ u < s.verts.length ∧
      List.Chain' (fun a b => b ∈ predsAt s.verts a)
        ((Vertices.visitLoop s search).path) ∧
      (∀ w ∈ ((Vertices.visitLoop s search).path).head?, R w)) := by
  induction s, search using Vertices.visitLoop.induct with
  | case1 s search hstk =>
    rw [Vertices.visitLoop.eq_def, hstk]
    exact Or.inl ⟨hstk, frame_nil hInv.frame hstk, hInv,
      fun e he => absurd he (List.not_mem_nil e)⟩
  | case2 s search index rest hstk hpos hval hfl ih =>
    rw [Vertices.visitLoop.eq_def, hstk]
    simp only [dif_pos hpos, dif_pos hval, dif_pos hfl]
    have hflag : flagAt s.verts index.toNat = true := by
      rw [flagAt_eq_getElem s.verts index.toNat hval]
      exact hfl
    have hInv2 : LoopInv R search (⟨s.verts, rest, s.path, s.result⟩ : Vertices V) :=
      { frame := frame_pop_flagged hInv.frame hstk hpos hflag
        flag_iff := hInv.flag_iff
        path_nd := hInv.path_nd
        res_nd := hInv.res_nd
        disj := hInv.disj
        res_lt := hInv.res_lt
        res_ok := hInv.res_ok
        no_search := hInv.no_search
        head_R := hInv.head_R }
    rcases ih hG hA hInv2 with ⟨h1, h2, h3, h4⟩ | hbrk
    · refine Or.inl ⟨h1, h2, h3, ?_⟩
      intro e he hpe
      rcases List.mem_cons.mp he with h | h
      · rw [h]
        obtain ⟨_, hmono, _⟩ :=
          visitLoop_frame (⟨s.verts, rest, s.path, s.result⟩ : Vertices V) search
        exact hmono index.toNat (h ▸ hflag)
      · exact h4 e h hpe
    · exact Or.inr hbrk
  | case3 s index rest hstk hpos hval hfl =>
    rw [Vertices.visitLoop.eq_def, hstk]
    simp only [dif_pos hpos, dif_pos hval, dif_neg hfl, if_pos rfl]
    obtain ⟨_, hlink⟩ := frame_enter hInv.frame hstk hpos hval hG
    refine Or.inr ⟨index.toNat, s.path, rfl, ?_, hval, ?_, ?_⟩
    · exact keyAt_eq_getElem s.verts index.toNat hval
    · refine List.Chain'.append (frame_chain hInv.frame) (List.chain'_singleton _) ?_
      intro x hx y hy
      rcases hlink with ⟨hnil, _⟩ | ⟨u, h1, h2⟩
      · rw [hnil] at hx
        simp at hx
      · rw [h1] at hx
        simp at hx hy
        rw [← hx, ← hy]
        exact h2
    · intro w hw
      cases hp : s.path with
      | nil =>
        rw [hp] at hw
        simp at hw
        rcases hlink with ⟨_, hR⟩ | ⟨u, h1, _⟩
        · exact hw ▸ hR
        · rw [hp] at h1
          simp at h1
      | cons a t =>
        rw [hp] at hw
        simp at hw
        apply hInv.head_R
        rw [hp, hw]
        rfl
  | case4 s search index rest hstk hpos hval hfl heq ih =>
    rw [Vertices.visitLoop.eq_def, hstk]
    simp only [dif_pos hpos, dif_pos hval, dif_neg hfl, if_neg heq]
    have hflagf : flagAt s.verts index.toNat = false := by
      rw [flagAt_eq_getElem s.verts index.toNat hval]
      simpa using hfl
    have hmlen : (modifyAt (fun vt => { vt with flag := true }) s.verts index.toNat).length
        = s.verts.length := modifyAt_length _ _ _
    have hmpreds : ∀ j,
        predsAt (modifyAt (fun vt => { vt with flag := true }) s.verts index.toNat) j
          = predsAt s.verts j := predsAt_modifyFlag s.verts index.toNat
    have hmkeys : ∀ j,
        keyAt (modifyAt (fun vt => { vt with flag := true }) s.verts index.toNat) j
          = keyAt s.verts j := keyAt_modifyFlag s.verts index.toNat
    obtain ⟨hfr2, hlink⟩ := frame_enter hInv.frame hstk hpos hval hG
    have hpeq : (s.verts[index.toNat]).preds = predsAt s.verts index.toNat :=
      (predsAt_eq_getElem s.verts index.toNat hval).symm
    have hnotmem : index.toNat ∉ s.path ∧ index.toNat ∉ s.result := by
      constructor
      · intro hmem
        have := (hInv.flag_iff index.toNat hval).mpr (Or.inl hmem)
        rw [this] at hflagf
        exact Bool.noConfusion hflagf
      · intro hmem
        have := (hInv.flag_iff index.toNat hval).mpr (Or.inr hmem)
        rw [this] at hflagf
        exact Bool.noConfusion hflagf
    have hInv2 : LoopInv R search
        (⟨modifyAt (fun vt => { vt with flag := true }) s.verts index.toNat,
          Vertices.pushIncoming
            (modifyAt (fun vt => { vt with flag := true }) s.verts index.toNat)
            (s.verts[index.toNat]) (intNot index :: rest),
          s.path ++ [index.toNat], s.result⟩ : Vertices V) :=
      { frame := by
          show Frame R _ (Vertices.pushIncoming _ _ _) _
          rw [Vertices.pushIncoming, hpeq]
          exact hfr2
        flag_iff := by
          intro i hi
          rw [hmlen] at hi
          rcases eq_or_ne i index.toNat with rfl | hne
          · have hft := flagAt_modifyFlag_self s.verts index.toNat hi
            constructor
            · intro _
              exact Or.inl (List.mem_append.mpr (Or.inr (by simp)))
            · intro _
              exact hft
          · rw [flagAt_modifyFlag_ne s.verts hne]
            rw [hInv.flag_iff i hi]
            constructor
            · rintro (h | h)
              · exact Or.inl (by simp [h])
              · exact Or.inr h
            · rintro (h | h)
              · rcases List.mem_append.mp h with h2 | h2
                · exact Or.inl h2
                · simp at h2
                  exact absurd h2 hne
              · exact Or.inr h
        path_nd := by
          simp only [List.nodup_append]
          exact ⟨hInv.path_nd, List.nodup_singleton _,
            by simpa using fun hmem => hnotmem.1 hmem⟩
        res_nd := hInv.res_nd
        disj := by
          intro i hi
          rcases List.mem_append.mp hi with h | h
          · exact hInv.disj i h
          · simp at h
            subst h
            exact hnotmem.2
        res_lt := by
          intro i hi
          rw [hmlen]
          exact hInv.res_lt i hi
        res_ok := resOK_congr hmpreds hInv.res_ok
        no_search := by
          intro i hi hflag
          rw [hmlen] at hi
          rw [hmkeys]
          rcases eq_or_ne i index.toNat with rfl | hne
          · rw [keyAt_eq_getElem s.verts index.toNat hval]
            intro hc
            exact heq hc.symm
          · rw [flagAt_modifyFlag_ne s.verts hne] at hflag
            exact hInv.no_search i hi hflag
        head_R := by
          intro u hu
          cases hp : s.path with
          | nil =>
            rw [hp] at hu
            simp at hu
            rcases hlink with ⟨_, hR⟩ | ⟨u2, h1, _⟩
            · exact hu ▸ hR
            · rw [hp] at h1
              simp at h1
          | cons a t =>
            rw [hp] at hu
            simp at hu
            apply hInv.head_R
            rw [hp, hu]
            rfl }
    have hG2 : ∀ i p,
        p ∈ predsAt (modifyAt (fun vt => { vt with flag := true }) s.verts index.toNat) i →
          p < (modifyAt (fun vt => { vt with flag := true }) s.verts index.toNat).length := by
      intro i p hp
      rw [hmpreds] at hp
      rw [hmlen]
      exact hG i p hp
    have hA2 : Acyclic (modifyAt (fun vt => { vt with flag := true }) s.verts index.toNat) :=
      acyclic_congr hmpreds hA
    rcases ih hG2 hA2 hInv2 with ⟨h1, h2, h3, h4⟩ | ⟨u, path0, hp1, hp2, hp3, hp4, hp5⟩
    · refine Or.inl ⟨h1, h2, h3, ?_⟩
      intro e he hpe
      rcases List.mem_cons.mp he with h | h
      · rw [h]
        obtain ⟨_, hmono, _⟩ := visitLoop_frame
          (⟨modifyAt (fun vt => { vt with flag := true }) s.verts index.toNat,
            Vertices.pushIncoming
              (modifyAt (fun vt => { vt with flag := true }) s.verts index.toNat)
              (s.verts[index.toNat]) (intNot index :: rest),
            s.path ++ [index.toNat], s.result⟩ : Vertices V) search
        exact hmono index.toNat (flagAt_modifyFlag_self s.verts index.toNat hval)
      · refine h4 e ?_ hpe
        show e ∈ Vertices.pushIncoming _ _ _
        rw [Vertices.pushIncoming]
        exact List.mem_append.mpr (Or.inr (by simp [h]))
    · refine Or.inr ⟨u, path0, hp1, ?_, ?_, ?_, hp5⟩
      · rw [← hmkeys]
        exact hp2
      · rw [← hmlen]
        exact hp3
      · refine List.Chain'.imp ?_ hp4
        intro a b hab
        rw [← hmpreds]
        exact hab
  | case5 s search index rest hstk hpos hval ih =>
    exact absurd (frame_head_valid hInv.frame hstk hpos hG) hval
  | case6 s search index rest hstk hpos ih =>
    rw [Vertices.visitLoop.eq_def, hstk]
    simp only [dif_neg hpos]
    have hneg : index < 0 := by omega
    obtain ⟨v, path0, hev, hpdec, hvlt, hfr0, hpredflag⟩ :=
      frame_exit hInv.frame hstk hneg
    have htonat : (intNot index).toNat = v := by
      rw [hev]
      exact intNot_ofNat_toNat v
    have hdrop : s.path.dropLast = path0 := by
      rw [hpdec]
      exact List.dropLast_concat
    have hvres : v ∉ s.result := hInv.disj v (by rw [hpdec]; simp)
    have hvpath0 : v ∉ path0 := by
      intro hmem
      have := hInv.path_nd
      rw [hpdec] at this
      rcases List.nodup_append.mp this with ⟨_, _, hdisj⟩
      exact hdisj hmem (by simp)
    have hInv2 : LoopInv R search
        (⟨s.verts, rest, s.path.dropLast, s.result ++ [(intNot index).toNat]⟩ :
          Vertices V) :=
      { frame := by
          rw [hdrop]
          exact hfr0
        flag_iff := by
          intro i hi
          rw [hdrop, htonat]
          rw [hInv.flag_iff i hi, hpdec]
          constructor
          · rintro (h | h)
            · rcases List.mem_append.mp h with h2 | h2
              · exact Or.inl h2
              · simp at h2
                exact Or.inr (by simp [h2])
            · exact Or.inr (by simp [h])
          · rintro (h | h)
            · exact Or.inl (by simp [h])
            · rcases List.mem_append.mp h with h2 | h2
              · exact Or.inr h2
              · simp at h2
                exact Or.inl (by simp [h2])
        path_nd := by
          rw [hdrop]
          have hnd := hInv.path_nd
          rw [hpdec] at hnd
          exact (List.nodup_append.mp hnd).1
        res_nd := by
          rw [htonat]
          simp only [List.nodup_append]
          exact ⟨hInv.res_nd, List.nodup_singleton _, by simpa using fun h => hvres h⟩
        disj := by
          intro i hi
          rw [hdrop] at hi
          rw [htonat]
          intro hmem
          rcases List.mem_append.mp hmem with h | h
          · exact hInv.disj i (by rw [hpdec]; simp [hi]) h
          · simp at h
            subst h
            exact hvpath0 hi
        res_lt := by
          intro i hi
          rw [htonat] at hi
          rcases List.mem_append.mp hi with h | h
          · exact hInv.res_lt i h
          · simp at h
            subst h
            exact hvlt
        res_ok := by
          rw [htonat]
          refine resOK_append hInv.res_ok ?_
          intro p hp
          have hfp := hpredflag p hp
          have hplt := hG v p hp
          rcases (hInv.flag_iff p hplt).mp hfp with h | h
          · rw [hpdec] at h
            rcases List.mem_append.mp h with h2 | h2
            · exact (chain_path_cycle hA (hpdec ▸ frame_chain hInv.frame) h2 hp).elim
            · simp at h2
              rw [h2] at hp
              exact ((hA v) (Relation.TransGen.single hp)).elim
          · exact h
        no_search := hInv.no_search
        head_R := by
          intro u hu
          rw [hdrop] at hu
          cases hp0 : path0 with
          | nil =>
            rw [hp0] at hu
            simp at hu
          | cons a t =>
            apply hInv.head_R
            rw [hpdec, hp0]
            rw [hp0] at hu
            simpa using hu }
    rcases ih hG hA hInv2 with ⟨h1, h2, h3, h4⟩ | hbrk
    · refine Or.inl ⟨h1, h2, h3, ?_⟩
      intro e he hpe
      rcases List.mem_cons.mp he with h | h
      · subst h
        exact absurd hpe (by omega)
      · exact h4 e h hpe
    · exact Or.inr hbrk

/-! ### The walk theory -/

theorem ginv_congr {a b : List (Vertex V)} (h : strip a = strip b)
    (hG : GInv a) : GInv b := by
  have hlen := strip_length a b h
  refine ⟨?_, ?_, ?_, ?_, ?_, ?_⟩
  · intro i
    rw [← idxAt_eq_of_strip h]
    exact hG.idx_eq i
  · intro i hi
    rw [← keyAt_eq_of_strip h]
    exact hG.key_ne i (by omega)
  · intro i j hi hj hkey
    rw [← keyAt_eq_of_strip h i, ← keyAt_eq_of_strip h j] at hkey
    exact hG.key_uniq i j (by omega) (by omega) hkey
  · intro i p hp
    rw [← predsAt_eq_of_strip h] at hp
    rw [← hlen]
    exact hG.preds_lt i p hp
  · intro i hi
    rw [← outAt_eq_of_strip h]
    have hout := hG.out_iff i (by omega)
    rw [hout]
    constructor
    · rintro ⟨j, hj⟩
      exact ⟨j, by rw [Edge, ← predsAt_eq_of_strip h]; exact hj⟩
    · rintro ⟨j, hj⟩
      exact ⟨j, by rw [Edge, predsAt_eq_of_strip h]; exact hj⟩
  · refine acyclic_congr (fun i => (predsAt_eq_of_strip h i).symm) hG.acyclic

theorem flagAt_strip (verts : List (Vertex V)) (i : Nat) :
    flagAt (strip verts) i = false := by
  simp only [flagAt, strip]
  rw [List.getElem?_map]
  cases verts[i]? <;> simp

/-- The invariant between root visits during `walk`. -/
def MidInv (s : Vertices V) : Prop :=
  s.stack = [] ∧ s.path = [] ∧
    (∀ i, i < s.verts.length → (flagAt s.verts i = true ↔ i ∈ s.result)) ∧
    s.result.Nodup ∧ (∀ i ∈ s.result, i < s.verts.length) ∧
    ResOK s.verts s.result

/-- One root visit during `walk`: the mid-invariant is restored, the
persistent content is untouched, flags only grow, the start vertex ends
flagged and the result buffer is only appended to. -/
theorem visit_step (s : Vertices V) (start : Nat) (hG : GInv s.verts)
    (hMid : MidInv s) (hstart : start < s.verts.length) :
    MidInv (Vertices.visit s start "") ∧
      strip (Vertices.visit s start "").verts = strip s.verts ∧
      (∀ i, flagAt s.verts i = true →
        flagAt (Vertices.visit s start "").verts i = true) ∧
      flagAt (Vertices.visit s start "").verts start = true ∧
      (∃ t, (Vertices.visit s start "").result = s.result ++ t) := by
  unfold Vertices.visit
  obtain ⟨hstk, hpth, hflags, hnd, hlt, hok⟩ := hMid
  have hInv : LoopInv (fun _ => True) ""
      (⟨s.verts, Int.ofNat start :: s.stack, s.path, s.result⟩ : Vertices V) :=
    { frame := by
        rw [hstk, hpth]
        exact Frame.base [Int.ofNat start] (by
          intro e he
          simp at he
          exact ⟨start, by simp [he], hstart, trivial⟩)
      flag_iff := by
        intro i hi
        rw [hpth]
        simp only [List.mem_nil_iff, false_or]
        exact hflags i hi
      path_nd := by rw [hpth]; exact List.nodup_nil
      res_nd := hnd
      disj := by rw [hpth]; intro i hi; exact absurd hi (List.not_mem_nil i)
      res_lt := hlt
      res_ok := hok
      no_search := fun i hi _ => hG.key_ne i hi
      head_R := fun u _ => trivial }
  have hGp : ∀ i p, p ∈ predsAt s.verts i → p < s.verts.length := hG.preds_lt
  have spec := visitLoop_spec
    (⟨s.verts, Int.ofNat start :: s.stack, s.path, s.result⟩ : Vertices V)
    hGp hG.acyclic hInv
  obtain ⟨hstrip, hmono, hext⟩ := visitLoop_frame
    (⟨s.verts, Int.ofNat start :: s.stack, s.path, s.result⟩ : Vertices V) ""
  rcases spec with ⟨h1, h2, h3, h4⟩ | ⟨u, path0, hp1, hp2, hp3, _, _⟩
  · refine ⟨⟨h1, h2, ?_, h3.res_nd, ?_, ?_⟩, hstrip, hmono, ?_, hext⟩
    · intro i hi
      have hlen2 := strip_length _ _ hstrip
      have := h3.flag_iff i (by omega)
      rw [h2] at this
      simpa using this
    · intro i hi
      have hlen2 := strip_length _ _ hstrip
      have := h3.res_lt i hi
      omega
    · exact h3.res_ok
    · have := h4 (Int.ofNat start) (by simp) (by simp [Int.ofNat_nonneg])
      simpa using this
  · exact absurd hp2 (hG.key_ne u hp3)

/-- The fold over the roots in `walk`. -/
theorem walk_fold (l : List Nat) (s : Vertices V) (hG : GInv s.verts)
    (hMid : MidInv s) (hl : ∀ i ∈ l, i < s.verts.length) :
    MidInv (l.foldl walkStep s) ∧
      strip (l.foldl walkStep s).verts = strip s.verts ∧
      (∀ i, flagAt s.verts i = true → flagAt (l.foldl walkStep s).verts i = true) ∧
      (∀ i ∈ l, outAt s.verts i = false →
        flagAt (l.foldl walkStep s).verts i = true) := by
  induction l generalizing s with
  | nil => exact ⟨hMid, rfl, fun i h => h, by simp⟩
  | cons a t ih =>
    rw [List.foldl_cons]
    have ha : a < s.verts.length := hl a (by simp)
    cases hout : outAt s.verts a with
    | true =>
      rw [walkStep, if_pos hout]
      obtain ⟨h1, h2, h3, h4⟩ := ih s hG hMid (fun i hi => hl i (by simp [hi]))
      refine ⟨h1, h2, h3, ?_⟩
      intro i hi houti
      rcases List.mem_cons.mp hi with h | h
      · subst h
        rw [houti] at hout
        exact Bool.noConfusion hout
      · exact h4 i h houti
    | false =>
      rw [walkStep, if_neg (by rw [hout]; simp)]
      obtain ⟨hMid2, hstrip2, hmono2, hstart2, _⟩ := visit_step s a hG hMid ha
      have hG2 : GInv (Vertices.visit s a "").verts := ginv_congr hstrip2.symm hG
      have hlen2 := strip_length _ _ hstrip2
      obtain ⟨h1, h2, h3, h4⟩ := ih (Vertices.visit s a "") hG2 hMid2
        (fun i hi => by rw [hlen2]; exact hl i (by simp [hi]))
      refine ⟨h1, h2.trans hstrip2, fun i hf => h3 i (hmono2 i hf), ?_⟩
      intro i hi houti
      rcases List.mem_cons.mp hi with h | h
      · subst h
        exact h3 i hstart2
      · refine h4 i h ?_
        rw [outAt_eq_of_strip hstrip2]
        exact houti

theorem mem_predsAt_lt {verts : List (Vertex V)} {p j : Nat}
    (h : p ∈ predsAt verts j) : j < verts.length := by
  cases hj : verts[j]? with
  | none => rw [predsAt, hj] at h; exact absurd h (List.not_mem_nil p)
  | some u =>
    rcases List.getElem?_eq_some_iff.mp hj with ⟨hlt, _⟩
    exact hlt

/-- After `walk`: the mid-invariant holds, the persistent content is
untouched, and every vertex without a successor (a root) is flagged. -/
theorem walk_post (s : Vertices V) (hG : GInv s.verts) :
    MidInv (Vertices.walk s) ∧
      strip (Vertices.walk s).verts = strip s.verts ∧
      (∀ i, i < s.verts.length → outAt s.verts i = false →
        flagAt (Vertices.walk s).verts i = true) := by
  unfold Vertices.walk
  have hstripr := strip_reset s
  have hGr : GInv (Vertices.reset s).verts := ginv_congr hstripr.symm hG
  have hlenr := strip_length _ _ hstripr
  have hMidr : MidInv (Vertices.reset s) := by
    refine ⟨rfl, rfl, ?_, List.nodup_nil, ?_, ?_⟩
    · intro i hi
      rw [reset_eq]
      simp [flagAt_strip]
    · intro i hi
      exact absurd hi (List.not_mem_nil i)
    · intro j hj p hp
      simp [Vertices.reset] at hj
  obtain ⟨h1, h2, h3, h4⟩ := walk_fold (List.range s.verts.length)
    (Vertices.reset s) hGr hMidr
    (fun i hi => by rw [hlenr]; exact List.mem_range.mp hi)
  refine ⟨h1, h2.trans hstripr, ?_⟩
  intro i hi hout
  refine h4 i (List.mem_range.mpr hi) ?_
  rw [outAt_eq_of_strip hstripr]
  exact hout

/-- Totality of the traversal: after `walk` every stored vertex is
flagged (the skipped has-successor vertices are reached through the
predecessor chain of some root). -/
theorem walk_flag_total (s : Vertices V) (hG : GInv s.verts) :
    ∀ i, i < s.verts.length → flagAt (Vertices.walk s).verts i = true := by
  obtain ⟨hMid, hstrip, hroots⟩ := walk_post s hG
  obtain ⟨hstk, hpth, hflags, hnd, hlt, hok⟩ := hMid
  have hlen := strip_length _ _ hstrip
  have hwf : WellFounded
      (fun (w u : Fin s.verts.length) =>
        Relation.TransGen (Edge s.verts) u.val w.val) := by
    letI : IsTrans (Fin s.verts.length)
        (fun w u => Relation.TransGen (Edge s.verts) u.val w.val) :=
      ⟨fun a b c hab hbc => Relation.TransGen.trans hbc hab⟩
    letI : IsIrrefl (Fin s.verts.length)
        (fun w u => Relation.TransGen (Edge s.verts) u.val w.val) :=
      ⟨fun a h => hG.acyclic a.val h⟩
    exact Finite.wellFounded_of_trans_of_irrefl _
  suffices hall : ∀ u : Fin s.verts.length,
      flagAt (Vertices.walk s).verts u.val = true by
    intro i hi
    exact hall ⟨i, hi⟩
  intro u
  refine @WellFounded.induction _ _ hwf
    (fun v => flagAt (Vertices.walk s).verts v.val = true) u ?_
  intro x ihx
  cases hout : outAt s.verts x.val with
  | false => exact hroots x.val x.isLt hout
  | true =>
    obtain ⟨j, hedge⟩ := (hG.out_iff x.val x.isLt).mp hout
    have hjlt : j < s.verts.length := mem_predsAt_lt hedge
    have hjflag : flagAt (Vertices.walk s).verts j = true :=
      ihx ⟨j, hjlt⟩ (Relation.TransGen.single hedge)
    have hjres : j ∈ (Vertices.walk s).result := by
      have := hflags j (by omega)
      rw [← this]
      exact hjflag
    have hpreds2 : predsAt (Vertices.walk s).verts j = predsAt s.verts j :=
      predsAt_eq_of_strip hstrip j
    have hxres : x.val ∈ (Vertices.walk s).result := by
      refine resOK_mem hok hjres x.val ?_
      rw [hpreds2]
      exact hedge
    rw [hflags x.val (by omega)]
    exact hxres

/-- Completeness of the result buffer: it lists exactly the stored
vertex indices. -/
theorem walk_result_mem (s : Vertices V) (hG : GInv s.verts) (i : Nat) :
    i ∈ (Vertices.walk s).result ↔ i < s.verts.length := by
  obtain ⟨hMid, hstrip, _⟩ := walk_post s hG
  obtain ⟨_, _, hflags, _, hlt, _⟩ := hMid
  have hlen := strip_length _ _ hstrip
  constructor
  · intro h
    have := hlt i h
    omega
  · intro h
    rw [← hflags i (by omega)]
    exact walk_flag_total s hG i h

theorem walk_result_nodup (s : Vertices V) (hG : GInv s.verts) :
    (Vertices.walk s).result.Nodup :=
  (walk_post s hG).1.2.2.2.1

/-- The result buffer is topologically sorted with respect to the
committed edges of the store. -/
theorem walk_resOK (s : Vertices V) (hG : GInv s.verts) :
    ResOK s.verts (Vertices.walk s).result := by
  obtain ⟨hMid, hstrip, _⟩ := walk_post s hG
  exact resOK_congr (fun i => (predsAt_eq_of_strip hstrip i).symm) hMid.2.2.2.2.2

/-! ### Correctness of the cycle check -/

theorem strip_strip (verts : List (Vertex V)) : strip (strip verts) = strip verts := by
  simp [strip]

theorem flagAt_true_lt {verts : List (Vertex V)} {i : Nat}
    (h : flagAt verts i = true) : i < verts.length := by
  cases hj : verts[i]? with
  | none => rw [flagAt, hj] at h; exact Bool.noConfusion h
  | some u =>
    rcases List.getElem?_eq_some_iff.mp hj with ⟨hlt, _⟩
    exact hlt

theorem chain_head_getLast_rtg {α : Type} {r : α → α → Prop} :
    ∀ {l : List α} {a b : α}, List.Chain' r l → l.head? = some a →
      l.getLast? = some b → Relation.ReflTransGen r a b := by
  intro l
  induction l with
  | nil =>
    intro a b _ ha _
    exact absurd ha (by simp)
  | cons x t ih =>
    intro a b hc ha hb
    have hax : x = a := by simpa using ha
    subst hax
    cases t with
    | nil =>
      have hba : x = b := by simpa using hb
      subst hba
      exact Relation.ReflTransGen.refl
    | cons y t2 =>
      have hr : r x y := (List.chain'_cons.mp hc).1
      have hc2 : List.Chain' r (y :: t2) := (List.chain'_cons.mp hc).2
      have hb2 : (y :: t2).getLast? = some b := by
        rw [← List.getLast?_cons_cons]
        exact hb
      exact Relation.ReflTransGen.head hr (ih hc2 rfl hb2)

theorem strip_self_length (verts : List (Vertex V)) :
    (strip verts).length = verts.length := by
  simp [strip]

/-- The deep tier of the cycle check: the search from `vIdx` leaves a
non-empty `path` exactly when some vertex with key `w` is reachable from
`vIdx` along predecessor edges, and then `path` is a predecessor chain
from `vIdx` to such a vertex. -/
theorem deep_visit_spec (s : Vertices V) (vIdx : Nat) (w : String)
    (hG : GInv s.verts) (hv : vIdx < s.verts.length) :
    strip (Vertices.visit (Vertices.reset s) vIdx w).verts = strip s.verts ∧
      ((Vertices.visit (Vertices.reset s) vIdx w).path = [] →
        ¬ ∃ u, Reaches s.verts vIdx u ∧ keyAt s.verts u = w) ∧
      ((Vertices.visit (Vertices.reset s) vIdx w).path ≠ [] →
        ∃ u path0, (Vertices.visit (Vertices.reset s) vIdx w).path = path0 ++ [u] ∧
          (Vertices.visit (Vertices.reset s) vIdx w).path.head? = some vIdx ∧
          List.Chain' (fun a b => b ∈ predsAt s.verts a)
            ((Vertices.visit (Vertices.reset s) vIdx w).path) ∧
          keyAt s.verts u = w ∧ Reaches s.verts vIdx u) := by
  unfold Vertices.visit
  rw [reset_eq]
  have hsl : (strip s.verts).length = s.verts.length := strip_self_length s.verts
  have hs2 : strip (strip s.verts) = strip s.verts := strip_strip s.verts
  have hG2 : GInv (strip s.verts) := ginv_congr hs2.symm hG
  have hInv : LoopInv (fun p => p = vIdx) w
      (⟨strip s.verts, Int.ofNat vIdx :: [], [], []⟩ : Vertices V) :=
    { frame := Frame.base [Int.ofNat vIdx] (by
        intro e he
        simp at he
        exact ⟨vIdx, by simp [he], by show vIdx < (strip s.verts).length; omega, rfl⟩)
      flag_iff := by
        intro i hi
        simp [flagAt_strip]
      path_nd := List.nodup_nil
      res_nd := List.nodup_nil
      disj := by intro i hi; exact absurd hi (List.not_mem_nil i)
      res_lt := by intro i hi; exact absurd hi (List.not_mem_nil i)
      res_ok := by intro j hj p hp; simp at hj
      no_search := by
        intro i hi hflag
        rw [flagAt_strip] at hflag
        exact Bool.noConfusion hflag
      head_R := by intro u hu; simp at hu }
  have spec := visitLoop_spec
    (⟨strip s.verts, Int.ofNat vIdx :: [], [], []⟩ : Vertices V)
    hG2.preds_lt hG2.acyclic hInv
  obtain ⟨hstripf, _, _⟩ := visitLoop_frame
    (⟨strip s.verts, Int.ofNat vIdx :: [], [], []⟩ : Vertices V) w
  have hstripf2 : strip (Vertices.visitLoop
      (⟨strip s.verts, Int.ofNat vIdx :: [], [], []⟩ : Vertices V) w).verts
      = strip s.verts := hstripf.trans hs2
  have hkeysf : ∀ i, keyAt (Vertices.visitLoop
      (⟨strip s.verts, Int.ofNat vIdx :: [], [], []⟩ : Vertices V) w).verts i
      = keyAt s.verts i := keyAt_eq_of_strip hstripf2
  have hpredsf : ∀ i, predsAt (strip s.verts) i = predsAt s.verts i :=
    predsAt_eq_of_strip hs2
  refine ⟨hstripf2, ?_, ?_⟩
  · intro hpath ⟨u, hreach, hkey⟩
    rcases spec with ⟨h1, h2, h3, h4⟩ | ⟨u2, path0, hp1, _, _, _, _⟩
    · have hflagu : ∀ x, Reaches s.verts vIdx x →
          flagAt (Vertices.visitLoop
            (⟨strip s.verts, Int.ofNat vIdx :: [], [], []⟩ : Vertices V) w).verts x
            = true := by
        intro x hx
        induction hx with
        | refl =>
          have := h4 (Int.ofNat vIdx) (by simp) (Int.ofNat_nonneg vIdx)
          simpa using this
        | tail hab hr ihx =>
          rename_i b c
          have hblt := flagAt_true_lt ihx
          have hbres : b ∈ (Vertices.visitLoop
              (⟨strip s.verts, Int.ofNat vIdx :: [], [], []⟩ : Vertices V) w).result := by
            rcases (h3.flag_iff b hblt).mp ihx with h | h
            · rw [h2] at h
              exact absurd h (List.not_mem_nil b)
            · exact h
          have hcres : c ∈ (Vertices.visitLoop
              (⟨strip s.verts, Int.ofNat vIdx :: [], [], []⟩ : Vertices V) w).result := by
            refine resOK_mem h3.res_ok hbres c ?_
            rw [predsAt_eq_of_strip hstripf2]
            exact hr
          have hclt := h3.res_lt c hcres
          exact (h3.flag_iff c hclt).mpr (Or.inr hcres)
      have hfu := hflagu u hreach
      have hult := flagAt_true_lt hfu
      refine h3.no_search u hult hfu ?_
      rw [hkeysf]
      exact hkey
    · rw [hp1] at hpath
      exact absurd hpath (by simp)
  · intro hpath
    rcases spec with ⟨h1, h2, h3, h4⟩ | ⟨u2, path0, hp1, hp2, hp3, hp4, hp5⟩
    · exact absurd h2 hpath
    · have hhead : (Vertices.visitLoop
          (⟨strip s.verts, Int.ofNat vIdx :: [], [], []⟩ : Vertices V) w).path.head?
          = some vIdx := by
        rw [hp1]
        cases hp0 : path0 with
        | nil =>
          simp
          have hu2 := hp5 u2 (by rw [hp1, hp0]; rfl)
          exact hu2
        | cons a t =>
          have ha := hp5 a (by rw [hp1, hp0]; rfl)
          simp [ha]
      have hchain2 : List.Chain' (fun a b => b ∈ predsAt s.verts a)
          ((Vertices.visitLoop
            (⟨strip s.verts, Int.ofNat vIdx :: [], [], []⟩ : Vertices V) w).path) := by
        refine List.Chain'.imp ?_ hp4
        intro a b hab
        rw [← hpredsf]
        exact hab
      have hlast : (Vertices.visitLoop
          (⟨strip s.verts, Int.ofNat vIdx :: [], [], []⟩ : Vertices V) w).path.getLast?
          = some u2 := by
        rw [hp1]
        exact List.getLast?_concat path0
      refine ⟨u2, path0, hp1, hhead, hchain2, ?_, ?_⟩
      · rw [← keyAt_eq_of_strip hs2]
        exact hp2
      · exact chain_head_getLast_rtg hchain2 hhead hlast

theorem visit_reset_strip (s : Vertices V) (vIdx : Nat) (w : String) :
    strip (Vertices.visit (Vertices.reset s) vIdx w).verts = strip s.verts := by
  unfold Vertices.visit
  obtain ⟨hstrip, _, _⟩ := visitLoop_frame
    (⟨(Vertices.reset s).verts, Int.ofNat vIdx :: (Vertices.reset s).stack,
      (Vertices.reset s).path, (Vertices.reset s).result⟩ : Vertices V) w
  exact hstrip.trans (strip_reset s)

/-- The cycle check never touches the persistent content of the store. -/
theorem check_strip (s : Vertices V) (vIdx : Nat) (w : String) :
    strip (Vertices.check s vIdx w).1.verts = strip s.verts := by
  unfold Vertices.check
  cases hvv : s.verts[vIdx]? with
  | none => rfl
  | some v =>
    simp only [hvv]
    by_cases h1 : v.key = w
    · simp [h1]
    · by_cases h2 : v.preds.length = 0
      · simp [h1, h2]
      · by_cases h3 : v.preds.any (fun p => keyAt s.verts p = w)
        · simp [h1, h2, h3]
        · simp only [if_neg h1, if_neg h2, if_neg h3]
          by_cases h4 : (Vertices.visit (Vertices.reset s) vIdx w).path.length = 0
          · simp only [if_pos h4]
            exact visit_reset_strip s vIdx w
          · simp only [if_neg h4]
            exact visit_reset_strip s vIdx w

/-- Correctness of `check`: it reports a cycle exactly when some vertex
with the successor's key is already reachable from the predecessor along
predecessor edges, and the reported chain is the successor key followed
by the keys of a predecessor path from the predecessor to such a
vertex. -/
theorem check_spec (s : Vertices V) (vIdx : Nat) (w : String)
    (hG : GInv s.verts) (hv : vIdx < s.verts.length) :
    ((Vertices.check s vIdx w).2.isSome = true ↔
      ∃ u, Reaches s.verts vIdx u ∧ keyAt s.verts u = w) ∧
    (∀ e, (Vertices.check s vIdx w).2 = some e →
      ∃ pth : List Nat, pth ≠ [] ∧ pth.head? = some vIdx ∧
        List.Chain' (fun a b => b ∈ predsAt s.verts a) pth ∧
        (∃ u, pth.getLast? = some u ∧ keyAt s.verts u = w) ∧
        e = DagError.cycle (w :: pth.map (keyAt s.verts))) := by
  have hkv : keyAt s.verts vIdx = (s.verts[vIdx]).key :=
    keyAt_eq_getElem s.verts vIdx hv
  have hpv : predsAt s.verts vIdx = (s.verts[vIdx]).preds :=
    predsAt_eq_getElem s.verts vIdx hv
  unfold Vertices.check
  rw [List.getElem?_eq_getElem hv]
  by_cases h1 : (s.verts[vIdx]).key = w
  · simp only [if_pos h1]
    constructor
    · simp only [Option.isSome_some, true_iff]
      exact ⟨vIdx, Relation.ReflTransGen.refl, by rw [hkv]; exact h1⟩
    · intro e he
      simp only [Option.some.injEq] at he
      refine ⟨[vIdx], by simp, rfl, List.chain'_singleton _,
        ⟨vIdx, rfl, by rw [hkv]; exact h1⟩, ?_⟩
      rw [← he]
      simp [hkv, h1]
  · by_cases h2 : (s.verts[vIdx]).preds.length = 0
    · simp only [if_neg h1, if_pos h2]
      constructor
      · simp only [Option.isSome_none, Bool.false_eq_true, false_iff]
        rintro ⟨u, hreach, hkey⟩
        rcases Relation.ReflTransGen.cases_head hreach with h | ⟨c, hstep, _⟩
        · rw [← h] at hkey
          rw [hkv] at hkey
          exact h1 hkey
        · have : c ∈ predsAt s.verts vIdx := hstep
          rw [hpv, List.length_eq_zero.mp h2] at this
          exact absurd this (List.not_mem_nil c)
      · intro e he
        exact absurd he (by simp)
    · by_cases h3 : (s.verts[vIdx]).preds.any (fun p => keyAt s.verts p = w)
      · simp only [if_neg h1, if_neg h2, if_pos h3]
        simp only [List.any_eq_true, decide_eq_true_eq] at h3
        obtain ⟨p, hpmem, hpkey⟩ := h3
        have hpdep : Dep s.verts vIdx p := by
          rw [Dep, hpv]
          exact hpmem
        constructor
        · simp only [Option.isSome_some, true_iff]
          exact ⟨p, Relation.ReflTransGen.single hpdep, hpkey⟩
        · intro e he
          simp only [Option.some.injEq] at he
          refine ⟨[vIdx, p], by simp, rfl, ?_, ⟨p, rfl, hpkey⟩, ?_⟩
          · exact List.chain'_cons.mpr ⟨by rw [← hpv] at hpmem; exact hpmem,
              List.chain'_singleton _⟩
          · rw [← he]
            simp [hkv, hpkey]
      · simp only [if_neg h1, if_neg h2, if_neg h3]
        obtain ⟨hstrip1, hnone, hsome⟩ := deep_visit_spec s vIdx w hG hv
        by_cases h4 : (Vertices.visit (Vertices.reset s) vIdx w).path.length = 0
        · simp only [if_pos h4]
          constructor
          · simp only [Option.isSome_none, Bool.false_eq_true, false_iff]
            exact hnone (List.length_eq_zero.mp h4)
          · intro e he
            exact absurd he (by simp)
        · simp only [if_neg h4]
          obtain ⟨u, path0, hp1, hhead, hchain, hkeyu, hreach⟩ :=
            hsome (fun hc => h4 (by rw [hc]; rfl))
          constructor
          · simp only [Option.isSome_some, true_iff]
            exact ⟨u, hreach, hkeyu⟩
          · intro e he
            simp only [Option.some.injEq] at he
            refine ⟨(Vertices.visit (Vertices.reset s) vIdx w).path,
              fun hc => h4 (by rw [hc]; rfl), hhead, hchain,
              ⟨u, by rw [hp1]; exact List.getLast?_concat path0, hkeyu⟩, ?_⟩
            rw [← he]
            have hmapeq : (Vertices.visit (Vertices.reset s) vIdx w).path.map
                (keyAt (Vertices.visit (Vertices.reset s) vIdx w).verts)
                = (Vertices.visit (Vertices.reset s) vIdx w).path.map
                    (keyAt s.verts) :=
              List.map_congr_left (fun a _ => keyAt_eq_of_strip hstrip1 a)
            rw [hmapeq]

/-! ### The edge commit -/

theorem keyAt_modifyAt_of (f : Vertex V → Vertex V)
    (hf : ∀ vt, (f vt).key = vt.key) (verts : List (Vertex V)) (i j : Nat) :
    keyAt (modifyAt f verts i) j = keyAt verts j := by
  unfold keyAt
  rcases eq_or_ne j i with rfl | hne
  · rw [getElem?_modifyAt_self]
    cases verts[j]? <;> simp [hf]
  · rw [getElem?_modifyAt_ne f verts hne]

theorem valAt_modifyAt_of (f : Vertex V → Vertex V)
    (hf : ∀ vt, (f vt).val = vt.val) (verts : List (Vertex V)) (i j : Nat) :
    valAt (modifyAt f verts i) j = valAt verts j := by
  unfold valAt
  rcases eq_or_ne j i with rfl | hne
  · rw [getElem?_modifyAt_self]
    cases verts[j]? <;> simp [hf]
  · rw [getElem?_modifyAt_ne f verts hne]

theorem idxAt_modifyAt_of (f : Vertex V → Vertex V)
    (hf : ∀ vt, (f vt).idx = vt.idx) (verts : List (Vertex V)) (i j : Nat) :
    idxAt (modifyAt f verts i) j = idxAt verts j := by
  unfold idxAt
  rcases eq_or_ne j i with rfl | hne
  · rw [getElem?_modifyAt_self]
    cases verts[j]? <;> simp [hf]
  · rw [getElem?_modifyAt_ne f verts hne]

theorem outAt_modifyAt_of (f : Vertex V → Vertex V)
    (hf : ∀ vt, (f vt).out = vt.out) (verts : List (Vertex V)) (i j : Nat) :
    outAt (modifyAt f verts i) j = outAt verts j := by
  unfold outAt
  rcases eq_or_ne j i with rfl | hne
  · rw [getElem?_modifyAt_self]
    cases verts[j]? <;> simp [hf]
  · rw [getElem?_modifyAt_ne f verts hne]

theorem flagAt_modifyAt_of (f : Vertex V → Vertex V)
    (hf : ∀ vt, (f vt).flag = vt.flag) (verts : List (Vertex V)) (i j : Nat) :
    flagAt (modifyAt f verts i) j = flagAt verts j := by
  unfold flagAt
  rcases eq_or_ne j i with rfl | hne
  · rw [getElem?_modifyAt_self]
    cases verts[j]? <;> simp [hf]
  · rw [getElem?_modifyAt_ne f verts hne]

theorem predsAt_modifyAt_of (f : Vertex V → Vertex V)
    (hf : ∀ vt, (f vt).preds = vt.preds) (verts : List (Vertex V)) (i j : Nat) :
    predsAt (modifyAt f verts i) j = predsAt verts j := by
  unfold predsAt
  rcases eq_or_ne j i with rfl | hne
  · rw [getElem?_modifyAt_self]
    cases verts[j]? <;> simp [hf]
  · rw [getElem?_modifyAt_ne f verts hne]

theorem predsAt_modifyAt_ne (f : Vertex V → Vertex V) (verts : List (Vertex V))
    {i j : Nat} (hne : j ≠ i) :
    predsAt (modifyAt f verts i) j = predsAt verts j := by
  unfold predsAt
  rw [getElem?_modifyAt_ne f verts hne]

theorem outAt_modifyAt_ne (f : Vertex V → Vertex V) (verts : List (Vertex V))
    {i j : Nat} (hne : j ≠ i) :
    outAt (modifyAt f verts i) j = outAt verts j := by
  unfold outAt
  rw [getElem?_modifyAt_ne f verts hne]

theorem predsAt_appendPred_self (verts : List (Vertex V)) (i x : Nat)
    (h : i < verts.length) :
    predsAt (modifyAt (fun vt => { vt with preds := vt.preds ++ [x] }) verts i) i
      = predsAt verts i ++ [x] := by
  unfold predsAt
  rw [getElem?_modifyAt_self, List.getElem?_eq_getElem h]
  rfl

theorem outAt_setOut_self (verts : List (Vertex V)) (i : Nat)
    (h : i < verts.length) :
    outAt (modifyAt (fun vt => { vt with out := true }) verts i) i = true := by
  unfold outAt
  rw [getElem?_modifyAt_self, List.getElem?_eq_getElem h]
  rfl

/-- Adding the single edge `vIdx → wIdx` to an acyclic graph keeps it
acyclic as long as `wIdx` did not already transitively precede `vIdx`. -/
theorem acyclic_newEdge {verts : List (Vertex V)} {vIdx wIdx : Nat}
    (hacy : Acyclic verts)
    (hnr : ¬ Relation.ReflTransGen (Edge verts) wIdx vIdx)
    {verts2 : List (Vertex V)}
    (hE : ∀ p j, Edge verts2 p j ↔ Edge verts p j ∨ (p = vIdx ∧ j = wIdx)) :
    Acyclic verts2 := by
  have hdecomp : ∀ a b, Relation.TransGen (Edge verts2) a b →
      Relation.TransGen (Edge verts) a b ∨
        (Relation.ReflTransGen (Edge verts) a vIdx ∧
          Relation.ReflTransGen (Edge verts) wIdx b) := by
    intro a b h
    induction h with
    | single hstep =>
      rcases (hE _ _).mp hstep with h2 | ⟨hav, hbw⟩
      · exact Or.inl (Relation.TransGen.single h2)
      · subst hav
        subst hbw
        exact Or.inr ⟨Relation.ReflTransGen.refl, Relation.ReflTransGen.refl⟩
    | tail hab hbc ih =>
      rcases (hE _ _).mp hbc with h2 | ⟨hbv, hcw⟩
      · rcases ih with h3 | ⟨h3a, h3b⟩
        · exact Or.inl (Relation.TransGen.tail h3 h2)
        · exact Or.inr ⟨h3a, Relation.ReflTransGen.tail h3b h2⟩
      · subst hbv
        subst hcw
        rcases ih with h3 | ⟨h3a, _⟩
        · exact Or.inr ⟨Relation.TransGen.to_reflTransGen h3,
            Relation.ReflTransGen.refl⟩
        · exact Or.inr ⟨h3a, Relation.ReflTransGen.refl⟩
  intro i hcyc
  rcases hdecomp i i hcyc with h | ⟨h1, h2⟩
  · exact hacy i h
  · exact hnr (Relation.ReflTransGen.trans h2 h1)

/-- A failing `addEdge` never touches the persistent content: the cycle
check throws before anything is committed. -/
theorem addEdge_err_strip (s : Vertices V) (vIdx wIdx : Nat) :
    (Vertices.addEdge s vIdx wIdx).2.isSome = true →
      strip (Vertices.addEdge s vIdx wIdx).1.verts = strip s.verts := by
  unfold Vertices.addEdge
  rcases hc : Vertices.check s vIdx (keyAt s.verts wIdx) with ⟨s1, eo⟩
  have hstrip1 : strip s1.verts = strip s.verts := by
    have hcs := check_strip s vIdx (keyAt s.verts wIdx)
    rw [hc] at hcs
    exact hcs
  cases eo with
  | some e =>
    intro _
    exact hstrip1
  | none =>
    by_cases hdup : idxAt s1.verts vIdx ∈ predsAt s1.verts wIdx
    · simp only [if_pos hdup]
      intro _
      exact hstrip1
    · simp only [if_neg hdup]
      intro hsome
      exact absurd hsome (by simp)

/-- `addEdge` throws exactly when a vertex carrying the successor's key is
already reachable from the predecessor by following predecessor edges. -/
theorem addEdge_err_iff (s : Vertices V) (vIdx wIdx : Nat)
    (hG : GInv s.verts) (hv : vIdx < s.verts.length) :
    ((Vertices.addEdge s vIdx wIdx).2.isSome = true ↔
      ∃ u, Reaches s.verts vIdx u ∧ keyAt s.verts u = keyAt s.verts wIdx) := by
  obtain ⟨hiff, _⟩ := check_spec s vIdx (keyAt s.verts wIdx) hG hv
  unfold Vertices.addEdge
  rcases hc : Vertices.check s vIdx (keyAt s.verts wIdx) with ⟨s1, eo⟩
  rw [hc] at hiff
  cases eo with
  | some e =>
    simpa using hiff
  | none =>
    by_cases hdup : idxAt s1.verts vIdx ∈ predsAt s1.verts wIdx
    · simp only [if_pos hdup]
      simpa using hiff
    · simp only [if_neg hdup]
      simpa using hiff

/-- The chain carried by a thrown cycle error: the successor key followed
by the keys along a predecessor path from the predecessor vertex to a
vertex whose key is the successor's. -/
theorem addEdge_chain (s : Vertices V) (vIdx wIdx : Nat)
    (hG : GInv s.verts) (hv : vIdx < s.verts.length) :
    ∀ e, (Vertices.addEdge s vIdx wIdx).2 = some e →
      ∃ pth : List Nat, pth ≠ [] ∧ pth.head? = some vIdx ∧
        List.Chain' (fun a b => b ∈ predsAt s.verts a) pth ∧
        (∃ u, pth.getLast? = some u ∧
          keyAt s.verts u = keyAt s.verts wIdx) ∧
        e = DagError.cycle
          (keyAt s.verts wIdx :: pth.map (keyAt s.verts)) := by
  obtain ⟨_, hshape⟩ := check_spec s vIdx (keyAt s.verts wIdx) hG hv
  unfold Vertices.addEdge
  rcases hc : Vertices.check s vIdx (keyAt s.verts wIdx) with ⟨s1, eo⟩
  rw [hc] at hshape
  cases eo with
  | some e2 =>
    intro e he
    simp at he
    subst he
    exact hshape e2 rfl
  | none =>
    by_cases hdup : idxAt s1.verts vIdx ∈ predsAt s1.verts wIdx
    · simp only [if_pos hdup]
      intro e he
      exact absurd he (by simp)
    · simp only [if_neg hdup]
      intro e he
      exact absurd he (by simp)

/-- Framing of `addEdge`: keys, indices, values and lengths are untouched;
predecessor lists only grow; the has-successor flags only get set. -/
theorem addEdge_frame (s : Vertices V) (vIdx wIdx : Nat) :
    (Vertices.addEdge s vIdx wIdx).1.verts.length = s.verts.length ∧
      (∀ j, keyAt (Vertices.addEdge s vIdx wIdx).1.verts j = keyAt s.verts j) ∧
      (∀ j, idxAt (Vertices.addEdge s vIdx wIdx).1.verts j = idxAt s.verts j) ∧
      (∀ j, valAt (Vertices.addEdge s vIdx wIdx).1.verts j = valAt s.verts j) ∧
      (∀ j, ∃ t, predsAt (Vertices.addEdge s vIdx wIdx).1.verts j
        = predsAt s.verts j ++ t) ∧
      (∀ j, outAt s.verts j = true →
        outAt (Vertices.addEdge s vIdx wIdx).1.verts j = true) := by
  unfold Vertices.addEdge
  rcases hc : Vertices.check s vIdx (keyAt s.verts wIdx) with ⟨s1, eo⟩
  have hstrip1 : strip s1.verts = strip s.verts := by
    have hcs := check_strip s vIdx (keyAt s.verts wIdx)
    rw [hc] at hcs
    exact hcs
  have hbase : s1.verts.length = s.verts.length ∧
      (∀ j, keyAt s1.verts j = keyAt s.verts j) ∧
      (∀ j, idxAt s1.verts j = idxAt s.verts j) ∧
      (∀ j, valAt s1.verts j = valAt s.verts j) ∧
      (∀ j, ∃ t, predsAt s1.verts j = predsAt s.verts j ++ t) ∧
      (∀ j, outAt s.verts j = true → outAt s1.verts j = true) :=
    ⟨strip_length _ _ hstrip1, keyAt_eq_of_strip hstrip1,
      idxAt_eq_of_strip hstrip1, valAt_eq_of_strip hstrip1,
      fun j => ⟨[], by simp [predsAt_eq_of_strip hstrip1 j]⟩,
      fun j h => by rw [outAt_eq_of_strip hstrip1]; exact h⟩
  cases eo with
  | some e => exact hbase
  | none =>
    by_cases hdup : idxAt s1.verts vIdx ∈ predsAt s1.verts wIdx
    · simp only [if_pos hdup]
      exact hbase
    · simp only [if_neg hdup]
      obtain ⟨hb1, hb2, hb3, hb4, hb5, hb6⟩ := hbase
      refine ⟨?_, ?_, ?_, ?_, ?_, ?_⟩
      · rw [modifyAt_length, modifyAt_length]
        exact hb1
      · intro j
        rw [keyAt_modifyAt_of (fun vt => { vt with out := true }) (fun vt => rfl),
          keyAt_modifyAt_of (fun vt =>
            { vt with preds := vt.preds ++ [idxAt s1.verts vIdx] }) (fun vt => rfl)]
        exact hb2 j
      · intro j
        rw [idxAt_modifyAt_of (fun vt => { vt with out := true }) (fun vt => rfl),
          idxAt_modifyAt_of (fun vt =>
            { vt with preds := vt.preds ++ [idxAt s1.verts vIdx] }) (fun vt => rfl)]
        exact hb3 j
      · intro j
        rw [valAt_modifyAt_of (fun vt => { vt with out := true }) (fun vt => rfl),
          valAt_modifyAt_of (fun vt =>
            { vt with preds := vt.preds ++ [idxAt s1.verts vIdx] }) (fun vt => rfl)]
        exact hb4 j
      · intro j
        rw [predsAt_modifyAt_of (fun vt => { vt with out := true }) (fun vt => rfl)]
        rcases eq_or_ne j wIdx with rfl | hne
        · by_cases hjlt : j < s1.verts.length
          · rw [predsAt_appendPred_self s1.verts j _ hjlt]
            obtain ⟨t, ht⟩ := hb5 j
            exact ⟨t ++ [idxAt s1.verts vIdx], by rw [ht]; simp⟩
          · have hnone : s1.verts[j]? = none := by
              rw [List.getElem?_eq_none]
              omega
            have hnone2 : predsAt s1.verts j = [] := by
              rw [predsAt, hnone]
            have hnone3 :
                predsAt (modifyAt (fun vt =>
                  { vt with preds := vt.preds ++ [idxAt s1.verts vIdx] })
                    s1.verts j) j = [] := by
              rw [predsAt, getElem?_modifyAt_self, hnone]
              rfl
            rw [hnone3]
            obtain ⟨t, ht⟩ := hb5 j
            rw [hnone2] at ht
            exact ⟨[], by rw [(List.append_eq_nil.mp ht.symm).1]; rfl⟩
        · rw [predsAt_modifyAt_ne _ _ hne]
          exact hb5 j
      · intro j hout
        rcases eq_or_ne j vIdx with rfl | hne
        · by_cases hjlt : j < (modifyAt (fun vt =>
              { vt with preds := vt.preds ++ [idxAt s1.verts j] })
                s1.verts wIdx).length
          · exact outAt_setOut_self _ j hjlt
          · rw [modifyAt_length] at hjlt
            have hnone : s1.verts[j]? = none := by
              rw [List.getElem?_eq_none]
              omega
            have hout1 := hb6 j hout
            rw [outAt, hnone] at hout1
            exact Bool.noConfusion hout1
        · rw [outAt_modifyAt_ne _ _ hne,
            outAt_modifyAt_of (fun vt =>
              { vt with preds := vt.preds ++ [idxAt s1.verts vIdx] })
              (fun vt => rfl)]
          exact hb6 j hout

/-- A successful `addEdge` preserves all store invariants, in particular
acyclicity: the passed cycle check guarantees the new edge closes no
cycle.  A failing one changes nothing persistent. -/
theorem addEdge_ginv (s : Vertices V) (vIdx wIdx : Nat) (hG : GInv s.verts)
    (hv : vIdx < s.verts.length) (hw : wIdx < s.verts.length) :
    GInv (Vertices.addEdge s vIdx wIdx).1.verts := by
  obtain ⟨hiff, _⟩ := check_spec s vIdx (keyAt s.verts wIdx) hG hv
  unfold Vertices.addEdge
  rcases hc : Vertices.check s vIdx (keyAt s.verts wIdx) with ⟨s1, eo⟩
  rw [hc] at hiff
  have hstrip1 : strip s1.verts = strip s.verts := by
    have hcs := check_strip s vIdx (keyAt s.verts wIdx)
    rw [hc] at hcs
    exact hcs
  have hG1 : GInv s1.verts := ginv_congr hstrip1.symm hG
  have hlen1 : s1.verts.length = s.verts.length := strip_length _ _ hstrip1
  cases eo with
  | some e => exact hG1
  | none =>
    by_cases hdup : idxAt s1.verts vIdx ∈ predsAt s1.verts wIdx
    · simp only [if_pos hdup]
      exact hG1
    · simp only [if_neg hdup]
      have hnreach : ¬ Reaches s.verts vIdx wIdx := by
        intro hr
        have hfalse := hiff.mpr ⟨wIdx, hr, rfl⟩
        simp at hfalse
      have hnreachE : ¬ Relation.ReflTransGen (Edge s1.verts) wIdx vIdx := by
        intro hr
        apply hnreach
        have hmono : Relation.ReflTransGen (Edge s.verts) wIdx vIdx := by
          refine Relation.ReflTransGen.mono ?_ hr
          intro a b hab
          have hab2 : a ∈ predsAt s1.verts b := hab
          rw [predsAt_eq_of_strip hstrip1 b] at hab2
          exact hab2
        exact Relation.reflTransGen_swap.mpr hmono
      have hidv : idxAt s1.verts vIdx = vIdx := hG1.idx_eq vIdx
      have hwlt1 : wIdx < s1.verts.length := by omega
      have hvlt1 : vIdx < s1.verts.length := by omega
      have hpreds2 : ∀ j,
          predsAt (modifyAt (fun vt => { vt with out := true })
            (modifyAt (fun vt =>
              { vt with preds := vt.preds ++ [idxAt s1.verts vIdx] })
              s1.verts wIdx) vIdx) j
          = predsAt (modifyAt (fun vt =>
              { vt with preds := vt.preds ++ [idxAt s1.verts vIdx] })
              s1.verts wIdx) j :=
        fun j => predsAt_modifyAt_of (fun vt => { vt with out := true })
          (fun vt => rfl) _ vIdx j
      have hEchar : ∀ p j,
          Edge (modifyAt (fun vt => { vt with out := true })
            (modifyAt (fun vt =>
              { vt with preds := vt.preds ++ [idxAt s1.verts vIdx] })
              s1.verts wIdx) vIdx) p j
          ↔ Edge s1.verts p j ∨ (p = vIdx ∧ j = wIdx) := by
        intro p j
        rw [Edge, Edge, hpreds2]
        rcases eq_or_ne j wIdx with rfl | hne
        · rw [predsAt_appendPred_self s1.verts j _ hwlt1, hidv]
          simp [List.mem_append]
        · rw [predsAt_modifyAt_ne _ _ hne]
          simp [hne]
      have hklen : (modifyAt (fun vt => { vt with out := true })
          (modifyAt (fun vt =>
            { vt with preds := vt.preds ++ [idxAt s1.verts vIdx] })
            s1.verts wIdx) vIdx).length = s1.verts.length := by
        rw [modifyAt_length, modifyAt_length]
      have hkeys2 : ∀ j, keyAt (modifyAt (fun vt => { vt with out := true })
          (modifyAt (fun vt =>
            { vt with preds := vt.preds ++ [idxAt s1.verts vIdx] })
            s1.verts wIdx) vIdx) j = keyAt s1.verts j := by
        intro j
        rw [keyAt_modifyAt_of (fun vt => { vt with out := true }) (fun vt => rfl),
          keyAt_modifyAt_of (fun vt =>
            { vt with preds := vt.preds ++ [idxAt s1.verts vIdx] }) (fun vt => rfl)]
      refine ⟨?_, ?_, ?_, ?_, ?_, ?_⟩
      · intro i
        rw [idxAt_modifyAt_of (fun vt => { vt with out := true }) (fun vt => rfl),
          idxAt_modifyAt_of (fun vt =>
            { vt with preds := vt.preds ++ [idxAt s1.verts vIdx] }) (fun vt => rfl)]
        exact hG1.idx_eq i
      · intro i hi
        rw [hkeys2]
        rw [hklen] at hi
        exact hG1.key_ne i hi
      · intro i j hi hj hkey
        rw [hkeys2, hkeys2] at hkey
        rw [hklen] at hi hj
        exact hG1.key_uniq i j hi hj hkey
      · intro i p hp
        rw [hklen]
        rcases (hEchar p i).mp hp with h | ⟨hpv, _⟩
        · exact hG1.preds_lt i p h
        · omega
      · intro i hi
        rw [hklen] at hi
        rcases eq_or_ne i vIdx with rfl | hne
        · constructor
          · intro _
            exact ⟨wIdx, (hEchar i wIdx).mpr (Or.inr ⟨rfl, rfl⟩)⟩
          · intro _
            exact outAt_setOut_self _ i (by rw [modifyAt_length]; omega)
        · rw [outAt_modifyAt_ne _ _ hne,
            outAt_modifyAt_of (fun vt =>
              { vt with preds := vt.preds ++ [idxAt s1.verts vIdx] })
              (fun vt => rfl)]
          rw [hG1.out_iff i hi]
          constructor
          · rintro ⟨j, hj⟩
            exact ⟨j, (hEchar i j).mpr (Or.inl hj)⟩
          · rintro ⟨j, hj⟩
            rcases (hEchar i j).mp hj with h | ⟨hiv, _⟩
            · exact ⟨j, h⟩
            · exact absurd hiv hne
      · exact acyclic_newEdge hG1.acyclic hnreachE hEchar

/-- A successful `addEdge` leaves the edge present: `vIdx` is among the
predecessors of `wIdx` afterwards. -/
theorem addEdge_none_edge (s : Vertices V) (vIdx wIdx : Nat)
    (hG : GInv s.verts) (hw : wIdx < s.verts.length) :
    (Vertices.addEdge s vIdx wIdx).2 = none →
      vIdx ∈ predsAt (Vertices.addEdge s vIdx wIdx).1.verts wIdx := by
  unfold Vertices.addEdge
  rcases hc : Vertices.check s vIdx (keyAt s.verts wIdx) with ⟨s1, eo⟩
  have hstrip1 : strip s1.verts = strip s.verts := by
    have hcs := check_strip s vIdx (keyAt s.verts wIdx)
    rw [hc] at hcs
    exact hcs
  have hG1 : GInv s1.verts := ginv_congr hstrip1.symm hG
  have hidv : idxAt s1.verts vIdx = vIdx := hG1.idx_eq vIdx
  have hlen1 : s1.verts.length = s.verts.length := strip_length _ _ hstrip1
  cases eo with
  | some e =>
    intro h
    exact absurd h (by simp)
  | none =>
    by_cases hdup : idxAt s1.verts vIdx ∈ predsAt s1.verts wIdx
    · simp only [if_pos hdup]
      intro _
      rw [hidv] at hdup
      exact hdup
    · simp only [if_neg hdup]
      intro _
      rw [predsAt_modifyAt_of (fun vt => { vt with out := true }) (fun vt => rfl),
        predsAt_appendPred_self s1.verts wIdx _ (by omega), hidv]
      simp

/-! ### The key/value layer: `Vertices.add`, value assignment, `DAG.add` -/

/-- `walk` never touches the persistent content (no invariants needed). -/
theorem walk_strip (s : Vertices V) :
    strip (Vertices.walk s).verts = strip s.verts := by
  unfold Vertices.walk
  have hfold : ∀ (l : List Nat) (st : Vertices V),
      strip (l.foldl walkStep st).verts = strip st.verts := by
    intro l
    induction l with
    | nil => intro st; rfl
    | cons a t ih =>
      intro st
      rw [List.foldl_cons]
      refine (ih (walkStep st a)).trans ?_
      unfold walkStep
      by_cases hout : outAt st.verts a
      · rw [if_pos hout]
      · rw [if_neg hout]
        unfold Vertices.visit
        obtain ⟨h1, _, _⟩ := visitLoop_frame
          (⟨st.verts, Int.ofNat a :: st.stack, st.path, st.result⟩ : Vertices V) ""
        exact h1
  exact (hfold _ _).trans (strip_reset s)

/-- Characterization of the key scan under the store invariants: it finds
exactly the index carrying the key. -/
theorem findKey_iff (verts : List (Vertex V)) (k : String) (i : Nat)
    (hG : GInv verts) :
    verts.findIdx? (fun vt => vt.key = k) = some i ↔
      i < verts.length ∧ keyAt verts i = k := by
  constructor
  · intro h
    rcases List.findIdx?_eq_some_iff_findIdx_eq.mp h with ⟨hl, hf⟩
    have hp := @List.findIdx_getElem _ (fun vt => decide (vt.key = k)) verts (by omega)
    simp only [hf] at hp
    simp at hp
    refine ⟨hl, ?_⟩
    rw [keyAt_eq_getElem verts i hl]
    exact hp
  · rintro ⟨hi, hkey⟩
    have hex : ∃ x ∈ verts, decide (x.key = k) = true := by
      refine ⟨verts[i], List.getElem_mem hi, ?_⟩
      rw [keyAt_eq_getElem verts i hi] at hkey
      simp [hkey]
    have hsome := List.findIdx?_eq_some_of_exists hex
    rcases List.findIdx?_eq_some_iff_findIdx_eq.mp hsome with ⟨hl2, _⟩
    have hp := @List.findIdx_getElem _ (fun vt => decide (vt.key = k)) verts (by omega)
    simp at hp
    have hkf : keyAt verts (verts.findIdx (fun vt => vt.key = k)) = k := by
      rw [keyAt_eq_getElem verts _ hl2]
      exact hp
    have := hG.key_uniq _ i hl2 hi (hkf.trans hkey.symm)
    rw [hsome, this]

/-- A vertex list extended with a fresh (predecessor-free) vertex has the
same predecessor lists everywhere. -/
theorem predsAt_append_fresh (verts : List (Vertex V)) (vt : Vertex V)
    (hvt : vt.preds = []) (j : Nat) :
    predsAt (verts ++ [vt]) j = predsAt verts j := by
  unfold predsAt
  rcases Nat.lt_trichotomy j verts.length with h | h | h
  · rw [List.getElem?_append_left h]
  · subst h
    rw [List.getElem?_concat_length]
    have hnone : verts[verts.length]? = none := by
      rw [List.getElem?_eq_none]
      exact Nat.le_refl _
    rw [hnone]
    simp [hvt]
  · have h1 : (verts ++ [vt])[j]? = none := by
      rw [List.getElem?_eq_none]
      simp
      omega
    have h2 : verts[j]? = none := by
      rw [List.getElem?_eq_none]
      omega
    rw [h1, h2]

theorem keyAt_append_lt (verts : List (Vertex V)) (vt : Vertex V) {j : Nat}
    (h : j < verts.length) : keyAt (verts ++ [vt]) j = keyAt verts j := by
  unfold keyAt
  rw [List.getElem?_append_left h]

theorem valAt_append_lt (verts : List (Vertex V)) (vt : Vertex V) {j : Nat}
    (h : j < verts.length) : valAt (verts ++ [vt]) j = valAt verts j := by
  unfold valAt
  rw [List.getElem?_append_left h]

theorem outAt_append_lt (verts : List (Vertex V)) (vt : Vertex V) {j : Nat}
    (h : j < verts.length) : outAt (verts ++ [vt]) j = outAt verts j := by
  unfold outAt
  rw [List.getElem?_append_left h]

/-- The store invariants survive appending a fresh vertex whose `idx` is
the current count, whose key is new and non-empty, and which has no
predecessors and no successor flag. -/
theorem ginv_append_fresh (verts : List (Vertex V)) (k : String)
    (hG : GInv verts) (hk : k ≠ "") (hnew : ∀ vt ∈ verts, vt.key ≠ k) :
    GInv (verts ++ [⟨verts.length, k, none, false, false, []⟩]) := by
  have hpreds : ∀ j, predsAt (verts ++ [⟨verts.length, k, none, false, false, []⟩]) j
      = predsAt verts j := fun j => predsAt_append_fresh verts _ rfl j
  have hkeys : ∀ j, j < verts.length →
      keyAt (verts ++ [⟨verts.length, k, none, false, false, []⟩]) j
        = keyAt verts j := fun j hj => keyAt_append_lt verts _ hj
  have hkeyn : keyAt (verts ++ [⟨verts.length, k, none, false, false, []⟩])
      verts.length = k := by
    unfold keyAt
    rw [List.getElem?_concat_length]
  refine ⟨?_, ?_, ?_, ?_, ?_, ?_⟩
  · intro i
    unfold idxAt
    rcases Nat.lt_trichotomy i verts.length with h | h | h
    · rw [List.getElem?_append_left h]
      have := hG.idx_eq i
      unfold idxAt at this
      exact this
    · subst h
      rw [List.getElem?_concat_length]
    · have h1 : (verts ++ [⟨verts.length, k, none, false, false, []⟩])[i]? = none := by
        rw [List.getElem?_eq_none]
        simp
        omega
      rw [h1]
  · intro i hi
    simp at hi
    rcases Nat.lt_or_ge i verts.length with h | h
    · rw [hkeys i h]
      exact hG.key_ne i h
    · have hie : i = verts.length := by omega
      subst hie
      rw [hkeyn]
      exact hk
  · intro i j hi hj hkey
    simp at hi hj
    rcases Nat.lt_or_ge i verts.length with h1 | h1 <;>
      rcases Nat.lt_or_ge j verts.length with h2 | h2
    · rw [hkeys i h1, hkeys j h2] at hkey
      exact hG.key_uniq i j h1 h2 hkey
    · have hje : j = verts.length := by omega
      subst hje
      rw [hkeys i h1, hkeyn] at hkey
      have hmem : verts[i] ∈ verts := List.getElem_mem h1
      have := hnew verts[i] hmem
      rw [keyAt_eq_getElem verts i h1] at hkey
      exact absurd hkey this
    · have hie : i = verts.length := by omega
      subst hie
      rw [hkeyn, hkeys j h2] at hkey
      have hmem : verts[j] ∈ verts := List.getElem_mem h2
      have := hnew verts[j] hmem
      rw [keyAt_eq_getElem verts j h2] at hkey
      exact absurd hkey.symm this
    · omega
  · intro i p hp
    rw [hpreds] at hp
    simp
    have := hG.preds_lt i p hp
    omega
  · intro i hi
    simp at hi
    have hedge : ∀ j, Edge (verts ++ [⟨verts.length, k, none, false, false, []⟩]) i j
        ↔ Edge verts i j := by
      intro j
      rw [Edge, Edge, hpreds]
    rcases Nat.lt_or_ge i verts.length with h | h
    · rw [outAt_append_lt verts _ h]
      rw [hG.out_iff i h]
      constructor
      · rintro ⟨j, hj⟩
        exact ⟨j, (hedge j).mpr hj⟩
      · rintro ⟨j, hj⟩
        exact ⟨j, (hedge j).mp hj⟩
    · have hie : i = verts.length := by omega
      have hout : outAt (verts ++ [⟨verts.length, k, none, false, false, []⟩]) i
          = false := by
        unfold outAt
        rw [hie, List.getElem?_concat_length]
      rw [hout]
      constructor
      · intro hc
        exact Bool.noConfusion hc
      · rintro ⟨j, hj⟩
        rw [Edge, predsAt_append_fresh verts _ rfl j] at hj
        have := hG.preds_lt j i hj
        omega
  · refine acyclic_congr (fun j => ?_) hG.acyclic
    exact hpreds j

theorem ginv_of_pointwise {a b : List (Vertex V)}
    (hlen : b.length = a.length)
    (hkey : ∀ j, keyAt b j = keyAt a j)
    (hidx : ∀ j, idxAt b j = idxAt a j)
    (hpreds : ∀ j, predsAt b j = predsAt a j)
    (hout : ∀ j, outAt b j = outAt a j)
    (hG : GInv a) : GInv b := by
  refine ⟨?_, ?_, ?_, ?_, ?_, ?_⟩
  · intro i
    rw [hidx]
    exact hG.idx_eq i
  · intro i hi
    rw [hkey]
    exact hG.key_ne i (by omega)
  · intro i j hi hj hkeq
    rw [hkey, hkey] at hkeq
    exact hG.key_uniq i j (by omega) (by omega) hkeq
  · intro i p hp
    rw [hpreds] at hp
    rw [hlen]
    exact hG.preds_lt i p hp
  · intro i hi
    rw [hout, hG.out_iff i (by omega)]
    constructor
    · rintro ⟨j, hj⟩
      refine ⟨j, ?_⟩
      rw [Edge, hpreds]
      exact hj
    · rintro ⟨j, hj⟩
      rw [Edge, hpreds] at hj
      exact ⟨j, hj⟩
  · exact acyclic_congr hpreds hG.acyclic

theorem vtxAdd_empty (s : Vertices V) :
    Vertices.add s "" = ((s, 0), some (DagError.invalidKey ("missing key"))) := by
  unfold Vertices.add
  rw [if_pos rfl]

theorem vtxAdd_found (s : Vertices V) (key : String) (i : Nat) (hk : key ≠ "")
    (hfind : s.verts.findIdx? (fun vt => vt.key = key) = some i) :
    Vertices.add s key = ((s, i), none) := by
  unfold Vertices.add
  rw [if_neg hk, hfind]

theorem vtxAdd_fresh (s : Vertices V) (key : String) (hk : key ≠ "")
    (hfind : s.verts.findIdx? (fun vt => vt.key = key) = none) :
    Vertices.add s key =
      ((⟨s.verts ++ [⟨s.verts.length, key, none, false, false, []⟩],
        s.stack, s.path, s.result⟩, s.verts.length), none) := by
  unfold Vertices.add
  rw [if_neg hk, hfind]

theorem valAt_setVal_self (verts : List (Vertex V)) (i : Nat) (val : Option V)
    (h : i < verts.length) :
    valAt (modifyAt (fun vt => { vt with val := val }) verts i) i = val := by
  unfold valAt
  rw [getElem?_modifyAt_self, List.getElem?_eq_getElem h]
  rfl

theorem valAt_setVal_ne (verts : List (Vertex V)) (i : Nat) (val : Option V)
    {j : Nat} (h : j ≠ i) :
    valAt (modifyAt (fun vt => { vt with val := val }) verts i) j
      = valAt verts j := by
  unfold valAt
  rw [getElem?_modifyAt_ne _ _ h]

theorem setVal_ginv (verts : List (Vertex V)) (i : Nat) (val : Option V)
    (hG : GInv verts) :
    GInv (modifyAt (fun vt => { vt with val := val }) verts i) :=
  ginv_of_pointwise (modifyAt_length _ _ _)
    (keyAt_modifyAt_of (fun vt => { vt with val := val }) (fun vt => rfl) verts i)
    (idxAt_modifyAt_of (fun vt => { vt with val := val }) (fun vt => rfl) verts i)
    (predsAt_modifyAt_of (fun vt => { vt with val := val }) (fun vt => rfl) verts i)
    (outAt_modifyAt_of (fun vt => { vt with val := val }) (fun vt => rfl) verts i) hG

/-- The growth relation between a store and a later store in the same
`add` call: vertices keep their keys and values, predecessor lists only
gain a suffix, and the store only grows. -/
def Carries (s t : Vertices V) : Prop :=
  s.verts.length ≤ t.verts.length ∧
    (∀ j, j < s.verts.length → keyAt t.verts j = keyAt s.verts j) ∧
    (∀ j, j < s.verts.length → valAt t.verts j = valAt s.verts j) ∧
    (∀ j, j < s.verts.length → ∃ tl, predsAt t.verts j = predsAt s.verts j ++ tl)

theorem carries_refl (s : Vertices V) : Carries s s :=
  ⟨Nat.le_refl _, fun j _ => rfl, fun j _ => rfl, fun j _ => ⟨[], by simp⟩⟩

theorem carries_trans {s t u : Vertices V} (h1 : Carries s t) (h2 : Carries t u) :
    Carries s u := by
  obtain ⟨l1, k1, v1, p1⟩ := h1
  obtain ⟨l2, k2, v2, p2⟩ := h2
  refine ⟨by omega, ?_, ?_, ?_⟩
  · intro j hj
    rw [k2 j (by omega), k1 j hj]
  · intro j hj
    rw [v2 j (by omega), v1 j hj]
  · intro j hj
    obtain ⟨t1, ht1⟩ := p1 j hj
    obtain ⟨t2, ht2⟩ := p2 j (by omega)
    exact ⟨t1 ++ t2, by rw [ht2, ht1, List.append_assoc]⟩

theorem addEdge_carries (s : Vertices V) (vIdx wIdx : Nat) :
    Carries s (Vertices.addEdge s vIdx wIdx).1 := by
  obtain ⟨h1, h2, _, h4, h5, _⟩ := addEdge_frame s vIdx wIdx
  exact ⟨by omega, fun j _ => h2 j, fun j _ => h4 j, fun j _ => h5 j⟩

/-- All the facts needed about one `Vertices.add` resolution with a
non-empty key. -/
theorem vtxAdd_facts (s : Vertices V) (key : String) (hk : key ≠ "")
    (hG : GInv s.verts) :
    ∃ s1 i, Vertices.add s key = ((s1, i), none) ∧ GInv s1.verts ∧
      Carries s s1 ∧ i < s1.verts.length ∧ keyAt s1.verts i = key ∧
      (∀ j, predsAt s1.verts j = predsAt s.verts j) ∧
      (∀ j, j ≥ s.verts.length → valAt s1.verts j = none) ∧
      (∀ j, outAt s1.verts j = outAt s.verts j) := by
  cases hfind : s.verts.findIdx? (fun vt => vt.key = key) with
  | some i =>
    obtain ⟨hi, hkey⟩ := (findKey_iff s.verts key i hG).mp hfind
    refine ⟨s, i, vtxAdd_found s key i hk hfind, hG, carries_refl s, hi, hkey,
      fun j => rfl, ?_, fun j => rfl⟩
    intro j hj
    unfold valAt
    rw [List.getElem?_eq_none (by omega)]
  | none =>
    have hnew : ∀ vt ∈ s.verts, vt.key ≠ key := by
      intro vt hvt
      have := List.findIdx?_eq_none_iff.mp hfind vt hvt
      simpa using this
    have hkeyn : keyAt (s.verts ++ [⟨s.verts.length, key, none, false, false, []⟩])
        s.verts.length = key := by
      unfold keyAt
      rw [List.getElem?_concat_length]
    refine ⟨_, s.verts.length, vtxAdd_fresh s key hk hfind,
      ginv_append_fresh s.verts key hG hk hnew, ?_, by simp, hkeyn,
      fun j => predsAt_append_fresh s.verts _ rfl j, ?_, ?_⟩
    · refine ⟨by simp, ?_, ?_, ?_⟩
      · intro j hj
        exact keyAt_append_lt s.verts _ hj
      · intro j hj
        exact valAt_append_lt s.verts _ hj
      · intro j hj
        exact ⟨[], by rw [predsAt_append_fresh s.verts _ rfl j]; simp⟩
    · intro j hj
      unfold valAt
      rcases Nat.lt_or_ge j (s.verts.length + 1) with h | h
      · have hje : j = s.verts.length := by omega
        subst hje
        rw [List.getElem?_concat_length]
      · rw [List.getElem?_eq_none (by simp; omega)]
    · intro j
      rcases Nat.lt_or_ge j s.verts.length with h | h
      · exact outAt_append_lt s.verts _ h
      · unfold outAt
        rcases Nat.lt_or_ge j (s.verts.length + 1) with h2 | h2
        · have hje : j = s.verts.length := by omega
          subst hje
          rw [List.getElem?_concat_length, List.getElem?_eq_none (by omega)]
        · rw [List.getElem?_eq_none (by simp; omega),
            List.getElem?_eq_none (by omega)]

theorem reaches_bound {verts : List (Vertex V)} {x u : Nat}
    (h : Reaches verts x u) : u = x ∨ ∃ j, u ∈ predsAt verts j := by
  rcases Relation.ReflTransGen.cases_tail h with h1 | ⟨c, _, hstep⟩
  · exact Or.inl h1
  · exact Or.inr ⟨c, hstep⟩

theorem addEdgesBefore_facts (ks : List String) :
    ∀ (s : Vertices V) (vIdx : Nat), GInv s.verts → vIdx < s.verts.length →
      GInv (addEdgesBefore s vIdx ks).1.verts ∧
        Carries s (addEdgesBefore s vIdx ks).1 := by
  induction ks with
  | nil =>
    intro s v hG hv
    exact ⟨hG, carries_refl s⟩
  | cons k rest ih =>
    intro s v hG hv
    by_cases hk : k = ""
    · subst hk
      unfold addEdgesBefore
      rw [vtxAdd_empty]
      exact ⟨hG, carries_refl s⟩
    · obtain ⟨s1, i, heq, hG1, hc1, hi1, _, _, _, _⟩ := vtxAdd_facts s k hk hG
      have hgoal : addEdgesBefore s v (k :: rest)
          = (match Vertices.addEdge s1 v i with
             | (s2, some e) => (s2, some e)
             | (s2, none) => addEdgesBefore s2 v rest) := by
        conv_lhs => unfold addEdgesBefore
        rw [heq]
      rcases hae : Vertices.addEdge s1 v i with ⟨s2, eo⟩
      rw [hae] at hgoal
      have hG2 : GInv s2.verts := by
        have hg := addEdge_ginv s1 v i hG1 (by have := hc1.1; omega) hi1
        rw [hae] at hg
        exact hg
      have hc2 : Carries s1 s2 := by
        have hcc := addEdge_carries s1 v i
        rw [hae] at hcc
        exact hcc
      cases eo with
      | some e =>
        have hgoal2 : addEdgesBefore s v (k :: rest) = (s2, some e) := hgoal
        rw [hgoal2]
        exact ⟨hG2, carries_trans hc1 hc2⟩
      | none =>
        have hgoal2 : addEdgesBefore s v (k :: rest) = addEdgesBefore s2 v rest := hgoal
        rw [hgoal2]
        obtain ⟨hg3, hc3⟩ := ih s2 v hG2
          (by have := hc1.1; have := hc2.1; omega)
        exact ⟨hg3, carries_trans (carries_trans hc1 hc2) hc3⟩

theorem addEdgesAfter_facts (ks : List String) :
    ∀ (s : Vertices V) (vIdx : Nat), GInv s.verts → vIdx < s.verts.length →
      GInv (addEdgesAfter s vIdx ks).1.verts ∧
        Carries s (addEdgesAfter s vIdx ks).1 := by
  induction ks with
  | nil =>
    intro s v hG hv
    exact ⟨hG, carries_refl s⟩
  | cons k rest ih =>
    intro s v hG hv
    by_cases hk : k = ""
    · subst hk
      unfold addEdgesAfter
      rw [vtxAdd_empty]
      exact ⟨hG, carries_refl s⟩
    · obtain ⟨s1, i, heq, hG1, hc1, hi1, _, _, _, _⟩ := vtxAdd_facts s k hk hG
      have hgoal : addEdgesAfter s v (k :: rest)
          = (match Vertices.addEdge s1 i v with
             | (s2, some e) => (s2, some e)
             | (s2, none) => addEdgesAfter s2 v rest) := by
        conv_lhs => unfold addEdgesAfter
        rw [heq]
      rcases hae : Vertices.addEdge s1 i v with ⟨s2, eo⟩
      rw [hae] at hgoal
      have hG2 : GInv s2.verts := by
        have hg := addEdge_ginv s1 i v hG1 hi1 (by have := hc1.1; omega)
        rw [hae] at hg
        exact hg
      have hc2 : Carries s1 s2 := by
        have hcc := addEdge_carries s1 i v
        rw [hae] at hcc
        exact hcc
      cases eo with
      | some e =>
        have hgoal2 : addEdgesAfter s v (k :: rest) = (s2, some e) := hgoal
        rw [hgoal2]
        exact ⟨hG2, carries_trans hc1 hc2⟩
      | none =>
        have hgoal2 : addEdgesAfter s v (k :: rest) = addEdgesAfter s2 v rest := hgoal
        rw [hgoal2]
        obtain ⟨hg3, hc3⟩ := ih s2 v hG2
          (by have := hc1.1; have := hc2.1; omega)
        exact ⟨hg3, carries_trans (carries_trans hc1 hc2) hc3⟩

theorem processBefore_facts (b : KeyArg) (s : Vertices V) (vIdx : Nat)
    (hG : GInv s.verts) (hv : vIdx < s.verts.length) :
    GInv (processBefore s vIdx b).1.verts ∧ Carries s (processBefore s vIdx b).1 := by
  cases b with
  | undef => exact ⟨hG, carries_refl s⟩
  | one k =>
    simp only [processBefore]
    by_cases hk : k = ""
    · rw [if_pos hk]
      exact ⟨hG, carries_refl s⟩
    · rw [if_neg hk]
      obtain ⟨s1, i, heq, hG1, hc1, hi1, _, _, _, _⟩ := vtxAdd_facts s k hk hG
      rw [heq]
      exact ⟨addEdge_ginv s1 vIdx i hG1 (by have := hc1.1; omega) hi1,
        carries_trans hc1 (addEdge_carries s1 vIdx i)⟩
  | many ks => exact addEdgesBefore_facts ks s vIdx hG hv

theorem processAfter_facts (a : KeyArg) (s : Vertices V) (vIdx : Nat)
    (hG : GInv s.verts) (hv : vIdx < s.verts.length) :
    GInv (processAfter s vIdx a).1.verts ∧ Carries s (processAfter s vIdx a).1 := by
  cases a with
  | undef => exact ⟨hG, carries_refl s⟩
  | one k =>
    simp only [processAfter]
    by_cases hk : k = ""
    · rw [if_pos hk]
      exact ⟨hG, carries_refl s⟩
    · rw [if_neg hk]
      obtain ⟨s1, i, heq, hG1, hc1, hi1, _, _, _, _⟩ := vtxAdd_facts s k hk hG
      rw [heq]
      exact ⟨addEdge_ginv s1 i vIdx hG1 hi1 (by have := hc1.1; omega),
        carries_trans hc1 (addEdge_carries s1 i vIdx)⟩
  | many ks => exact addEdgesAfter_facts ks s vIdx hG hv

/-- The combined facts of one `DAG.add` call with a non-empty key: the
store keeps its invariants, only grows, the resolved vertex holds the
given key and value, and every pre-existing vertex keeps its key, its
value (unless it is the added key) and its predecessor prefix — whether or
not the call throws. -/
theorem dagAdd_facts (s : Vertices V) (k : String) (v : Option V)
    (b a : KeyArg) (hG : GInv s.verts) (hk : k ≠ "") :
    ∃ s1 i, Vertices.add s k = ((s1, i), none) ∧
      GInv (DAG.add s k v b a).1.verts ∧
      s.verts.length ≤ (DAG.add s k v b a).1.verts.length ∧
      i < (DAG.add s k v b a).1.verts.length ∧
      keyAt (DAG.add s k v b a).1.verts i = k ∧
      valAt (DAG.add s k v b a).1.verts i = v ∧
      (∀ j, j < s.verts.length →
        keyAt (DAG.add s k v b a).1.verts j = keyAt s.verts j) ∧
      (∀ j, j < s.verts.length → j ≠ i →
        valAt (DAG.add s k v b a).1.verts j = valAt s.verts j) ∧
      (∀ j, j < s.verts.length →
        ∃ tl, predsAt (DAG.add s k v b a).1.verts j = predsAt s.verts j ++ tl) := by
  obtain ⟨s1, i, heq, hG1, hc1, hi1, hkey1, hpreds1, _, _⟩ := vtxAdd_facts s k hk hG
  have hDA : DAG.add s k v b a
      = (match processBefore
            (⟨modifyAt (fun vt => { vt with val := v }) s1.verts i,
              s1.stack, s1.path, s1.result⟩ : Vertices V) i b with
         | (s3, some e) => (s3, some e)
         | (s3, none) => processAfter s3 i a) := by
    unfold DAG.add
    rw [if_neg hk, heq]
  have hlen2 : (modifyAt (fun vt => { vt with val := v }) s1.verts i).length
      = s1.verts.length := modifyAt_length _ _ _
  have hG2 : GInv (modifyAt (fun vt => { vt with val := v }) s1.verts i) :=
    setVal_ginv _ _ _ hG1
  have hkeys2 : ∀ j, keyAt (modifyAt (fun vt => { vt with val := v }) s1.verts i) j
      = keyAt s1.verts j :=
    keyAt_modifyAt_of (fun vt => { vt with val := v }) (fun vt => rfl) s1.verts i
  have hpreds2 : ∀ j, predsAt (modifyAt (fun vt => { vt with val := v }) s1.verts i) j
      = predsAt s1.verts j :=
    predsAt_modifyAt_of (fun vt => { vt with val := v }) (fun vt => rfl) s1.verts i
  rcases hpb : processBefore
      (⟨modifyAt (fun vt => { vt with val := v }) s1.verts i,
        s1.stack, s1.path, s1.result⟩ : Vertices V) i b with ⟨s3, eo⟩
  obtain ⟨hG3, hc3⟩ := processBefore_facts b
    (⟨modifyAt (fun vt => { vt with val := v }) s1.verts i,
      s1.stack, s1.path, s1.result⟩ : Vertices V) i hG2
    (by show i < (modifyAt (fun vt => { vt with val := v }) s1.verts i).length
        rw [hlen2]
        exact hi1)
  rw [hpb] at hG3 hc3 hDA
  have hfin : ∀ (s4 : Vertices V), GInv s4.verts →
      Carries (⟨modifyAt (fun vt => { vt with val := v }) s1.verts i,
        s1.stack, s1.path, s1.result⟩ : Vertices V) s4 →
      GInv s4.verts ∧
        s.verts.length ≤ s4.verts.length ∧
        i < s4.verts.length ∧
        keyAt s4.verts i = k ∧
        valAt s4.verts i = v ∧
        (∀ j, j < s.verts.length → keyAt s4.verts j = keyAt s.verts j) ∧
        (∀ j, j < s.verts.length → j ≠ i →
          valAt s4.verts j = valAt s.verts j) ∧
        (∀ j, j < s.verts.length →
          ∃ tl, predsAt s4.verts j = predsAt s.verts j ++ tl) := by
    intro s4 hG4 hc4
    have hcl4 : (modifyAt (fun vt => { vt with val := v }) s1.verts i).length
        ≤ s4.verts.length := hc4.1
    have hck4 : ∀ j, j < (modifyAt (fun vt => { vt with val := v }) s1.verts i).length →
        keyAt s4.verts j
          = keyAt (modifyAt (fun vt => { vt with val := v }) s1.verts i) j := hc4.2.1
    have hcv4 : ∀ j, j < (modifyAt (fun vt => { vt with val := v }) s1.verts i).length →
        valAt s4.verts j
          = valAt (modifyAt (fun vt => { vt with val := v }) s1.verts i) j := hc4.2.2.1
    have hcp4 : ∀ j, j < (modifyAt (fun vt => { vt with val := v }) s1.verts i).length →
        ∃ tl, predsAt s4.verts j
          = predsAt (modifyAt (fun vt => { vt with val := v }) s1.verts i) j ++ tl :=
      hc4.2.2.2
    have hslen : s.verts.length ≤ s1.verts.length := hc1.1
    refine ⟨hG4, by omega, by omega, ?_, ?_, ?_, ?_, ?_⟩
    · rw [hck4 i (by omega), hkeys2]
      exact hkey1
    · rw [hcv4 i (by omega)]
      exact valAt_setVal_self s1.verts i v hi1
    · intro j hj
      rw [hck4 j (by omega), hkeys2]
      exact hc1.2.1 j hj
    · intro j hj hji
      rw [hcv4 j (by omega), valAt_setVal_ne s1.verts i v hji]
      exact hc1.2.2.1 j hj
    · intro j hj
      obtain ⟨tl, htl⟩ := hcp4 j (by omega)
      rw [hpreds2, hpreds1] at htl
      exact ⟨tl, htl⟩
  cases eo with
  | some e =>
    have hDA2 : DAG.add s k v b a = (s3, some e) := hDA
    obtain ⟨a1, a2, a3, a4, a5, a6, a7, a8⟩ := hfin s3 hG3 hc3
    rw [hDA2]
    exact ⟨s1, i, heq, a1, a2, a3, a4, a5, a6, a7, a8⟩
  | none =>
    have hDA2 : DAG.add s k v b a = processAfter s3 i a := hDA
    rcases hpa : processAfter s3 i a with ⟨s4, eo2⟩
    have hlen3 : (modifyAt (fun vt => { vt with val := v }) s1.verts i).length
        ≤ s3.verts.length := hc3.1
    obtain ⟨hG4, hc4⟩ := processAfter_facts a s3 i hG3 (by omega)
    rw [hpa] at hG4 hc4 hDA2
    have hcomp : Carries (⟨modifyAt (fun vt => { vt with val := v }) s1.verts i,
        s1.stack, s1.path, s1.result⟩ : Vertices V) s4 :=
      carries_trans hc3 hc4
    obtain ⟨a1, a2, a3, a4, a5, a6, a7, a8⟩ := hfin s4 hG4 hcomp
    rw [hDA2]
    exact ⟨s1, i, heq, a1, a2, a3, a4, a5, a6, a7, a8⟩

/-- `DAG.add` preserves the store invariants, also when it throws. -/
theorem dagAdd_ginv (s : Vertices V) (k : String) (v : Option V)
    (b a : KeyArg) (hG : GInv s.verts) :
    GInv (DAG.add s k v b a).1.verts := by
  by_cases hk : k = ""
  · unfold DAG.add
    rw [if_pos hk]
    exact hG
  · obtain ⟨s1, i, _, hg, _⟩ := dagAdd_facts s k v b a hG hk
    exact hg

theorem ginv_empty : GInv (emptyDag V).verts := by
  refine ⟨?_, ?_, ?_, ?_, ?_, ?_⟩
  · intro i
    rfl
  · intro i hi
    simp [emptyDag] at hi
  · intro i j hi _
    simp [emptyDag] at hi
  · intro i p hp
    simp [emptyDag, predsAt] at hp
  · intro i hi
    simp [emptyDag] at hi
  · intro i h
    have hne : ∀ a b : Nat, ¬ Edge (emptyDag V).verts a b := by
      intro a b hab
      simp [emptyDag, predsAt, Edge] at hab
    obtain ⟨c, hstep, -⟩ := (Relation.TransGen.head'_iff).mp h
    exact hne i c hstep

/-- `walk` only reads the persistent content of the store: stores with
equal `strip`s walk identically. -/
theorem walk_congr {s t : Vertices V} (h : strip s.verts = strip t.verts) :
    Vertices.walk s = Vertices.walk t := by
  unfold Vertices.walk
  rw [reset_eq, reset_eq, h, strip_length s.verts t.verts h]

theorem findKey_none_iff (verts : List (Vertex V)) (k : String) :
    verts.findIdx? (fun vt => vt.key = k) = none ↔
      ∀ j, j < verts.length → keyAt verts j ≠ k := by
  rw [List.findIdx?_eq_none_iff]
  constructor
  · intro h j hj
    have hm := h verts[j] (verts.getElem_mem hj)
    rw [keyAt_eq_getElem verts j hj]
    simpa using hm
  · intro h x hx
    obtain ⟨j, hj, rfl⟩ := List.mem_iff_getElem.mp hx
    have hk := h j hj
    rw [keyAt_eq_getElem verts j hj] at hk
    simpa using hk

theorem walk_keys_eq (s : Vertices V) :
    (walkOutput s).map Prod.fst
      = (Vertices.walk s).result.map (fun j => keyAt s.verts j) := by
  unfold walkOutput Vertices.eachKV
  rw [List.map_map]
  exact List.map_congr_left
    (fun j _ => keyAt_eq_of_strip (walk_strip s) j)

/-- The keys emitted by a traversal are pairwise distinct. -/
theorem walk_keys_nodup (s : Vertices V) (hG : GInv s.verts) :
    ((walkOutput s).map Prod.fst).Nodup := by
  rw [walk_keys_eq]
  refine List.Nodup.map_on ?_ (walk_result_nodup s hG)
  intro x hx y hy hxy
  exact hG.key_uniq x y ((walk_result_mem s hG x).mp hx)
    ((walk_result_mem s hG y).mp hy) hxy

theorem walk_keys_mem (s : Vertices V) (hG : GInv s.verts) (i : Nat)
    (hi : i < s.verts.length) :
    keyAt s.verts i ∈ (walkOutput s).map Prod.fst := by
  rw [walk_keys_eq]
  exact List.mem_map.mpr ⟨i, (walk_result_mem s hG i).mpr hi, rfl⟩

/-- A `DAG.add` with no constraints on a key that is already present
reduces to overwriting the stored value in place. -/
theorem dagAdd_readd (s : Vertices V) (k : String) (v : Option V) (i : Nat)
    (hk : k ≠ "") (hfind : s.verts.findIdx? (fun vt => vt.key = k) = some i) :
    DAG.add s k v KeyArg.undef KeyArg.undef
      = (⟨modifyAt (fun vt => { vt with val := v }) s.verts i,
          s.stack, s.path, s.result⟩, none) := by
  have hadd : Vertices.add s k = ((s, i), none) := vtxAdd_found s k i hk hfind
  unfold DAG.add
  rw [if_neg hk, hadd]
  rfl

theorem forward_core (A : List (Vertex V)) (stk : List Int)
    (pth res : List Nat) (b : String) (ia : Nat)
    (hG2 : GInv A) (hb : b ≠ "") (hia : ia < A.length)
    (hkeysbA : ∀ j, j < A.length → keyAt A j ≠ b) :
    Vertices.add (⟨A, stk, pth, res⟩ : Vertices V) b
        = (((⟨A ++ [⟨A.length, b, none, false, false, []⟩], stk, pth, res⟩
            : Vertices V), A.length), none) ∧
    (Vertices.addEdge (⟨A ++ [⟨A.length, b, none, false, false, []⟩],
        stk, pth, res⟩ : Vertices V) ia A.length).2 = none ∧
    GInv (Vertices.addEdge (⟨A ++ [⟨A.length, b, none, false, false, []⟩],
        stk, pth, res⟩ : Vertices V) ia A.length).1.verts ∧
    (Vertices.addEdge (⟨A ++ [⟨A.length, b, none, false, false, []⟩],
        stk, pth, res⟩ : Vertices V) ia A.length).1.verts.length = A.length + 1 ∧
    keyAt (Vertices.addEdge (⟨A ++ [⟨A.length, b, none, false, false, []⟩],
        stk, pth, res⟩ : Vertices V) ia A.length).1.verts A.length = b ∧
    valAt (Vertices.addEdge (⟨A ++ [⟨A.length, b, none, false, false, []⟩],
        stk, pth, res⟩ : Vertices V) ia A.length).1.verts A.length = none := by
  have hknew : ∀ vt ∈ A, vt.key ≠ b := by
    intro vt hvt
    obtain ⟨j, hj, rfl⟩ := List.mem_iff_getElem.mp hvt
    have hne := hkeysbA j hj
    rw [keyAt_eq_getElem _ j hj] at hne
    exact hne
  have hmissA : A.findIdx? (fun vt => vt.key = b) = none :=
    (findKey_none_iff A b).mpr hkeysbA
  have hG3 : GInv (A ++ [⟨A.length, b, none, false, false, []⟩]) :=
    ginv_append_fresh A b hG2 hb hknew
  have hlen3 : (A ++ ([⟨A.length, b, none, false, false, []⟩]
      : List (Vertex V))).length = A.length + 1 := by
    simp
  have hkey3nb : keyAt (A ++ [⟨A.length, b, none, false, false, []⟩])
      A.length = b := by
    unfold keyAt
    rw [List.getElem?_concat_length]
  have hval3nb : valAt (A ++ [⟨A.length, b, none, false, false, []⟩])
      A.length = none := by
    unfold valAt
    rw [List.getElem?_concat_length]
  have hpreds3 : ∀ j, predsAt (A ++ [⟨A.length, b, none, false, false, []⟩]) j
      = predsAt A j :=
    fun j => predsAt_append_fresh A _ rfl j
  have hialt : ia < (A ++ ([⟨A.length, b, none, false, false, []⟩]
      : List (Vertex V))).length := by
    rw [hlen3]
    omega
  have hnblt : A.length < (A ++ ([⟨A.length, b, none, false, false, []⟩]
      : List (Vertex V))).length := by
    rw [hlen3]
    omega
  have hnoerr : ¬ ((Vertices.addEdge (⟨A ++ [⟨A.length, b, none, false, false, []⟩],
      stk, pth, res⟩ : Vertices V) ia A.length).2.isSome = true) := by
    rw [addEdge_err_iff _ ia _ hG3 hialt]
    rintro ⟨u, hru, hku⟩
    have hru2 : Reaches (A ++ [⟨A.length, b, none, false, false, []⟩]) ia u := hru
    have hku2 : keyAt (A ++ [⟨A.length, b, none, false, false, []⟩]) u
        = keyAt (A ++ [⟨A.length, b, none, false, false, []⟩]) A.length := hku
    rw [hkey3nb] at hku2
    have hult : u < A.length := by
      rcases reaches_bound hru2 with rfl | ⟨j, hj⟩
      · exact hia
      · rw [hpreds3] at hj
        exact hG2.preds_lt j u hj
    rw [keyAt_append_lt A _ hult] at hku2
    exact hkeysbA u hult hku2
  have hfresh : Vertices.add (⟨A, stk, pth, res⟩ : Vertices V) b
      = (((⟨A ++ [⟨A.length, b, none, false, false, []⟩], stk, pth, res⟩
          : Vertices V), A.length), none) :=
    vtxAdd_fresh _ b hb hmissA
  obtain ⟨hflen, hfkeys, _, hfvals, _, _⟩ := addEdge_frame
    (⟨A ++ [⟨A.length, b, none, false, false, []⟩], stk, pth, res⟩ : Vertices V)
    ia A.length
  have hG4 := addEdge_ginv
    (⟨A ++ [⟨A.length, b, none, false, false, []⟩], stk, pth, res⟩ : Vertices V)
    ia A.length hG3 hialt hnblt
  refine ⟨hfresh, ?_, hG4, ?_, ?_, ?_⟩
  · cases hc : (Vertices.addEdge (⟨A ++ [⟨A.length, b, none, false, false, []⟩],
        stk, pth, res⟩ : Vertices V) ia A.length).2 with
    | none => rfl
    | some e =>
      rw [hc] at hnoerr
      simp at hnoerr
  · rw [hflen]
    exact hlen3
  · rw [hfkeys]
    exact hkey3nb
  · rw [hfvals]
    exact hval3nb

theorem dagAdd_forward_aux (s s1 : Vertices V) (a b : String) (v : Option V)
    (ia : Nat)
    (hb : b ≠ "") (ha : a ≠ "")
    (hadd : Vertices.add s a = ((s1, ia), none))
    (hG1 : GInv s1.verts) (hia : ia < s1.verts.length)
    (hlen1 : s.verts.length ≤ s1.verts.length)
    (hkeysb : ∀ j, j < s1.verts.length → keyAt s1.verts j ≠ b) :
    ∃ nb, (DAG.add s a v (KeyArg.one b) KeyArg.undef).2 = none ∧
      GInv (DAG.add s a v (KeyArg.one b) KeyArg.undef).1.verts ∧
      s.verts.length ≤ nb ∧
      nb < (DAG.add s a v (KeyArg.one b) KeyArg.undef).1.verts.length ∧
      keyAt (DAG.add s a v (KeyArg.one b) KeyArg.undef).1.verts nb = b ∧
      valAt (DAG.add s a v (KeyArg.one b) KeyArg.undef).1.verts nb = none := by
  have hlen2 : (modifyAt (fun vt => { vt with val := v }) s1.verts ia).length
      = s1.verts.length := modifyAt_length _ _ _
  have hkeys2 : ∀ j, keyAt (modifyAt (fun vt => { vt with val := v }) s1.verts ia) j
      = keyAt s1.verts j :=
    keyAt_modifyAt_of (fun vt => { vt with val := v }) (fun vt => rfl) s1.verts ia
  obtain ⟨hfresh, hen, heg, hel, hek, hev⟩ :=
    forward_core (modifyAt (fun vt => { vt with val := v }) s1.verts ia)
      s1.stack s1.path s1.result b ia (setVal_ginv _ _ _ hG1) hb
      (by rw [hlen2]; exact hia)
      (by intro j hj
          rw [hkeys2]
          rw [hlen2] at hj
          exact hkeysb j hj)
  have hDA : DAG.add s a v (KeyArg.one b) KeyArg.undef
      = (match processBefore
            (⟨modifyAt (fun vt => { vt with val := v }) s1.verts ia,
              s1.stack, s1.path, s1.result⟩ : Vertices V) ia (KeyArg.one b) with
         | (s3, some e) => (s3, some e)
         | (s3, none) => processAfter s3 ia KeyArg.undef) := by
    unfold DAG.add
    rw [if_neg ha, hadd]
  have hPB : processBefore
      (⟨modifyAt (fun vt => { vt with val := v }) s1.verts ia,
        s1.stack, s1.path, s1.result⟩ : Vertices V) ia (KeyArg.one b)
      = Vertices.addEdge
          (⟨modifyAt (fun vt => { vt with val := v }) s1.verts ia
              ++ [⟨(modifyAt (fun vt => { vt with val := v }) s1.verts ia).length,
                  b, none, false, false, []⟩],
            s1.stack, s1.path, s1.result⟩ : Vertices V) ia
          (modifyAt (fun vt => { vt with val := v }) s1.verts ia).length := by
    simp only [processBefore]
    rw [if_neg hb, hfresh]
  rw [hPB] at hDA
  rcases hae : Vertices.addEdge
      (⟨modifyAt (fun vt => { vt with val := v }) s1.verts ia
          ++ [⟨(modifyAt (fun vt => { vt with val := v }) s1.verts ia).length,
              b, none, false, false, []⟩],
        s1.stack, s1.path, s1.result⟩ : Vertices V) ia
      (modifyAt (fun vt => { vt with val := v }) s1.verts ia).length with ⟨s4, eo⟩
  rw [hae] at hDA hen heg hel hek hev
  cases eo with
  | some e => simp at hen
  | none =>
  have hDA2 : DAG.add s a v (KeyArg.one b) KeyArg.undef = (s4, none) := hDA
  have heg2 : GInv s4.verts := heg
  have hel2 : s4.verts.length
      = (modifyAt (fun vt => { vt with val := v }) s1.verts ia).length + 1 := hel
  have hek2 : keyAt s4.verts
      (modifyAt (fun vt => { vt with val := v }) s1.verts ia).length = b := hek
  have hev2 : valAt s4.verts
      (modifyAt (fun vt => { vt with val := v }) s1.verts ia).length = none := hev
  refine ⟨(modifyAt (fun vt => { vt with val := v }) s1.verts ia).length,
    ?_, ?_, ?_, ?_, ?_, ?_⟩
  · rw [hDA2]
  · rw [hDA2]
    exact heg2
  · omega
  · rw [hDA2]
    show _ < s4.verts.length
    omega
  · rw [hDA2]
    exact hek2
  · rw [hDA2]
    exact hev2


/-- The forward-reference behaviour of `DAG.add`: naming a missing key
only as a `before` target creates a placeholder vertex at the end of the
store, with no value, and the call succeeds. -/
theorem dagAdd_forward (s : Vertices V) (a b : String) (v : Option V)
    (hG : GInv s.verts) (ha : a ≠ "") (hb : b ≠ "") (hab : a ≠ b)
    (hmiss : s.verts.findIdx? (fun vt => vt.key = b) = none) :
    ∃ nb, (DAG.add s a v (KeyArg.one b) KeyArg.undef).2 = none ∧
      GInv (DAG.add s a v (KeyArg.one b) KeyArg.undef).1.verts ∧
      s.verts.length ≤ nb ∧
      nb < (DAG.add s a v (KeyArg.one b) KeyArg.undef).1.verts.length ∧
      keyAt (DAG.add s a v (KeyArg.one b) KeyArg.undef).1.verts nb = b ∧
      valAt (DAG.add s a v (KeyArg.one b) KeyArg.undef).1.verts nb = none := by
  have hkeysS : ∀ j, j < s.verts.length → keyAt s.verts j ≠ b :=
    (findKey_none_iff s.verts b).mp hmiss
  cases hfind : s.verts.findIdx? (fun vt => vt.key = a) with
  | some ia =>
    obtain ⟨hia, hkeya⟩ := (findKey_iff s.verts a ia hG).mp hfind
    exact dagAdd_forward_aux s s a b v ia hb ha
      (vtxAdd_found s a ia ha hfind) hG hia (Nat.le_refl _) hkeysS
  | none =>
    have hknewa : ∀ vt ∈ s.verts, vt.key ≠ a := by
      intro vt hvt
      obtain ⟨j, hj, rfl⟩ := List.mem_iff_getElem.mp hvt
      have := ((findKey_none_iff s.verts a).mp hfind) j hj
      rw [keyAt_eq_getElem _ j hj] at this
      exact this
    refine dagAdd_forward_aux s
      (⟨s.verts ++ [⟨s.verts.length, a, none, false, false, []⟩],
        s.stack, s.path, s.result⟩ : Vertices V) a b v s.verts.length hb ha
      (vtxAdd_fresh s a ha hfind) (ginv_append_fresh s.verts a hG ha hknewa)
      (by simp) (by simp) ?_
    intro j hj
    show keyAt (s.verts ++ [⟨s.verts.length, a, none, false, false, []⟩]) j ≠ b
    have hjlen : j < s.verts.length + 1 := by
      simpa using hj
    rcases Nat.lt_trichotomy j s.verts.length with h | h | h
    · rw [keyAt_append_lt s.verts _ h]
      exact hkeysS j h
    · rw [h]
      unfold keyAt
      rw [List.getElem?_concat_length]
      intro hcon
      exact hab (hcon ▸ rfl)
    · omega

/-- Every store reachable by a sequence of `add` calls (throwing or not)
satisfies the invariants; in particular its precedence relation is
acyclic. -/
theorem build_ginv (ops : List (AddOp V)) : GInv (build ops).verts := by
  have hfold : ∀ (l : List (AddOp V)) (s : Vertices V), GInv s.verts →
      GInv (l.foldl
        (fun st op => (DAG.add st op.key op.value op.before op.after).1) s).verts := by
    intro l
    induction l with
    | nil => intro s hG; exact hG
    | cons op t ih =>
      intro s hG
      rw [List.foldl_cons]
      exact ih _ (dagAdd_ginv s op.key op.value op.before op.after hG)
  exact hfold ops (emptyDag V) ginv_empty

/-! ### Sample stores used to instantiate the claims -/

/-- One `add("a", 1)` call with no constraints. -/
def opA : AddOp Nat := ⟨"a", some 1, KeyArg.undef, KeyArg.undef⟩

/-- One `add("a", 1, "b")` call: `a` before the forward-referenced `b`. -/
def opAB : AddOp Nat := ⟨"a", some 1, KeyArg.one "b", KeyArg.undef⟩

/-- The store holding the single unconstrained vertex `a`. -/
def sampleSingle : Vertices Nat := build [opA]

/-- The store holding `a` (index 0) before `b` (index 1). -/
def sampleChain : Vertices Nat := build [opAB]

theorem walkOutput_getElem (s : Vertices V) (j : Nat)
    (hj : j < (Vertices.walk s).result.length) :
    (walkOutput s)[j]? = some (keyAt s.verts ((Vertices.walk s).result[j]),
      valAt s.verts ((Vertices.walk s).result[j])) := by
  show ((Vertices.walk s).result.map
      (fun i => (keyAt (Vertices.walk s).verts i,
        valAt (Vertices.walk s).verts i)))[j]? = _
  rw [List.getElem?_map, List.getElem?_eq_getElem hj]
  simp only [Option.map_some']
  rw [keyAt_eq_of_strip (walk_strip s), valAt_eq_of_strip (walk_strip s)]

/-! ### The claims -/

/-- C1: topological validity.  In every store built by a sequence of
`add` calls, every committed precedence edge (`p` before `q`) has the key
of `p` emitted strictly before the key of `q` in the `each`/`walk`
output; the emitted key column lists each key exactly once, so the
positions are unambiguous. -/
theorem C1_topological_validity (V : Type) (ops : List (AddOp V)) (p q : Nat)
    (hq : q < (build ops).verts.length)
    (hp : p ∈ predsAt (build ops).verts q) :
    ∃ jp jq : Nat, jp < jq ∧
      (walkOutput (build ops))[jp]? = some (keyAt (build ops).verts p,
        valAt (build ops).verts p) ∧
      (walkOutput (build ops))[jq]? = some (keyAt (build ops).verts q,
        valAt (build ops).verts q) ∧
      ((walkOutput (build ops)).map Prod.fst).Nodup := by
  have hG : GInv (build ops).verts := build_ginv ops
  have hmemq : q ∈ (Vertices.walk (build ops)).result :=
    (walk_result_mem _ hG q).mpr hq
  obtain ⟨jq, hjq, hjqv⟩ := List.mem_iff_getElem.mp hmemq
  have hpq : p ∈ predsAt (build ops).verts
      ((Vertices.walk (build ops)).result[jq]) := by
    rw [hjqv]
    exact hp
  obtain ⟨jp, hjp, hlt, hjpv⟩ := walk_resOK (build ops) hG jq hjq p hpq
  refine ⟨jp, jq, hlt, ?_, ?_, walk_keys_nodup _ hG⟩
  · rw [walkOutput_getElem _ jp hjp, hjpv]
  · rw [walkOutput_getElem _ jq hjq, hjqv]

theorem C1_topological_validity_witness :
    ∃ jp jq : Nat, jp < jq ∧
      (walkOutput (build [opAB]))[jp]? = some (keyAt (build [opAB]).verts 0,
        valAt (build [opAB]).verts 0) ∧
      (walkOutput (build [opAB]))[jq]? = some (keyAt (build [opAB]).verts 1,
        valAt (build [opAB]).verts 1) ∧
      ((walkOutput (build [opAB])).map Prod.fst).Nodup :=
  C1_topological_validity Nat [opAB] 0 1 (by decide) (by decide)

/-- C2: acyclicity.  The transitively closed predecessor relation of
every store reachable by a sequence of `add` calls is acyclic, and a
request for an edge that would close a cycle (the new successor already
transitively depends on the new predecessor) makes `addEdge` throw a
cycle error while leaving the persistent store unchanged. -/
theorem C2_acyclicity_invariant (V : Type) (ops : List (AddOp V)) :
    Acyclic (build ops).verts ∧
    (∀ vIdx wIdx, vIdx < (build ops).verts.length →
      wIdx < (build ops).verts.length →
      Reaches (build ops).verts vIdx wIdx →
      ∃ chain, (Vertices.addEdge (build ops) vIdx wIdx).2
          = some (DagError.cycle chain) ∧
        strip (Vertices.addEdge (build ops) vIdx wIdx).1.verts
          = strip (build ops).verts) := by
  have hG := build_ginv ops
  refine ⟨hG.acyclic, ?_⟩
  intro vIdx wIdx hv hw hreach
  have hsome : (Vertices.addEdge (build ops) vIdx wIdx).2.isSome = true :=
    (addEdge_err_iff (build ops) vIdx wIdx hG hv).mpr ⟨wIdx, hreach, rfl⟩
  obtain ⟨e, he⟩ := Option.isSome_iff_exists.mp hsome
  obtain ⟨pth, _, _, _, _, hshape⟩ :=
    addEdge_chain (build ops) vIdx wIdx hG hv e he
  refine ⟨keyAt (build ops).verts wIdx :: pth.map (keyAt (build ops).verts),
    ?_, ?_⟩
  · rw [he, hshape]
  · exact addEdge_err_strip (build ops) vIdx wIdx hsome

theorem C2_acyclicity_invariant_witness :
    ∃ chain, (Vertices.addEdge (build [opAB]) 1 0).2
        = some (DagError.cycle chain) ∧
      strip (Vertices.addEdge (build [opAB]) 1 0).1.verts
        = strip (build [opAB]).verts :=
  (C2_acyclicity_invariant Nat [opAB]).2 1 0 (by decide) (by decide)
    (Relation.ReflTransGen.single
      (by show (0 : Nat) ∈ predsAt (build [opAB]).verts 1
          decide))

/-- C3, counterexample to the claimed atomicity of failing `add` calls:
the call `add("a", 1, ["b", "a"])` on an empty store throws the
self-cycle error, yet it leaves behind the two vertices it created, the
value stored for `a`, and the committed edge `a before b`. -/
theorem C3_failing_add_atomicity_counterexample :
    (DAG.add (emptyDag Nat) "a" (some 1)
        (KeyArg.many ["b", "a"]) KeyArg.undef).2
      = some (DagError.cycle ["a", "a"]) ∧
    (DAG.add (emptyDag Nat) "a" (some 1)
        (KeyArg.many ["b", "a"]) KeyArg.undef).1.verts.length = 2 ∧
    valAt (DAG.add (emptyDag Nat) "a" (some 1)
        (KeyArg.many ["b", "a"]) KeyArg.undef).1.verts 0 = some 1 ∧
    predsAt (DAG.add (emptyDag Nat) "a" (some 1)
        (KeyArg.many ["b", "a"]) KeyArg.undef).1.verts 1 = [0] ∧
    (emptyDag Nat).verts.length = 0 := by
  decide

/-- C3, amended: failure atomicity holds at the edge level, not at the
`add`-call level.  Whenever the cycle check makes `addEdge` throw, the
persistent store (its keys, values, and predecessor edges) is exactly as
it was before that `addEdge` call; a failing `add` call as a whole may
still leave behind the vertices, value assignment and edges it committed
before the error was raised. -/
theorem C3_failing_add_atomicity_amended (V : Type) (s : Vertices V)
    (vIdx wIdx : Nat)
    (herr : (Vertices.addEdge s vIdx wIdx).2.isSome = true) :
    strip (Vertices.addEdge s vIdx wIdx).1.verts = strip s.verts ∧
    (∀ j, keyAt (Vertices.addEdge s vIdx wIdx).1.verts j = keyAt s.verts j) ∧
    (∀ j, valAt (Vertices.addEdge s vIdx wIdx).1.verts j = valAt s.verts j) ∧
    (∀ j, predsAt (Vertices.addEdge s vIdx wIdx).1.verts j
      = predsAt s.verts j) := by
  have h := addEdge_err_strip s vIdx wIdx herr
  exact ⟨h, fun j => keyAt_eq_of_strip h j, fun j => valAt_eq_of_strip h j,
    fun j => predsAt_eq_of_strip h j⟩

theorem C3_failing_add_atomicity_amended_witness :
    strip (Vertices.addEdge sampleSingle 0 0).1.verts
        = strip sampleSingle.verts ∧
    (∀ j, keyAt (Vertices.addEdge sampleSingle 0 0).1.verts j
      = keyAt sampleSingle.verts j) ∧
    (∀ j, valAt (Vertices.addEdge sampleSingle 0 0).1.verts j
      = valAt sampleSingle.verts j) ∧
    (∀ j, predsAt (Vertices.addEdge sampleSingle 0 0).1.verts j
      = predsAt sampleSingle.verts j) :=
  C3_failing_add_atomicity_amended Nat sampleSingle 0 0 (by decide)

/-- C4: determinism.  The output of `each` is a function of the built
store alone: it equals `walkOutput`, a repeated `each` on the mutated
store emits the same list again, and more generally any two stores with
the same persistent content produce the same output, so the transient
flags, stack, path and result buffers never influence the order. -/
theorem C4_deterministic_output (V : Type) (ops : List (AddOp V)) :
    (DAG.each (build ops)).2 = walkOutput (build ops) ∧
    (DAG.each ((DAG.each (build ops)).1)).2 = (DAG.each (build ops)).2 ∧
    (∀ s t : Vertices V, strip s.verts = strip t.verts →
      walkOutput s = walkOutput t) := by
  have hcong : ∀ s t : Vertices V, strip s.verts = strip t.verts →
      walkOutput s = walkOutput t := by
    intro s t h
    unfold walkOutput
    rw [walk_congr h]
  refine ⟨rfl, ?_, hcong⟩
  show walkOutput (Vertices.walk (build ops)) = walkOutput (build ops)
  exact hcong _ _ (walk_strip (build ops))

theorem C4_deterministic_output_witness :
    walkOutput (Vertices.walk sampleChain) = walkOutput sampleChain :=
  (C4_deterministic_output Nat [opAB]).2.2 (Vertices.walk sampleChain)
    sampleChain (walk_strip sampleChain)

/-- C5: exactly-once visiting.  On any store satisfying the invariants,
`walk` visits every stored vertex exactly once: the result buffer is
duplicate-free, contains precisely the indices of the store, and the
emitted output has one entry per vertex. -/
theorem C5_walk_visits_exactly_once (V : Type) (s : Vertices V)
    (hG : GInv s.verts) :
    (Vertices.walk s).result.Nodup ∧
    (∀ i, i ∈ (Vertices.walk s).result ↔ i < s.verts.length) ∧
    (walkOutput s).length = s.verts.length := by
  refine ⟨walk_result_nodup s hG, fun i => walk_result_mem s hG i, ?_⟩
  have hperm : (Vertices.walk s).result.Perm (List.range s.verts.length) :=
    (List.perm_ext_iff_of_nodup (walk_result_nodup s hG)
      (List.nodup_range _)).mpr
      (fun a => by rw [walk_result_mem s hG a, List.mem_range])
  have hlen := hperm.length_eq
  show ((Vertices.walk s).result.map _).length = s.verts.length
  rw [List.length_map, hlen, List.length_range]

theorem C5_walk_visits_exactly_once_witness :
    (Vertices.walk sampleChain).result.Nodup ∧
    (∀ i, i ∈ (Vertices.walk sampleChain).result ↔
      i < sampleChain.verts.length) ∧
    (walkOutput sampleChain).length = sampleChain.verts.length :=
  C5_walk_visits_exactly_once Nat sampleChain (build_ginv [opAB])

/-- C6: cycle detection.  On an invariant-satisfying store, `addEdge`
throws exactly when some vertex reachable from the new predecessor
(itself included) already carries the new successor key, and the thrown
error lists the successor key followed by the discovered predecessor
chain from the new predecessor back to that vertex. -/
theorem C6_addEdge_error_iff_reachable (V : Type) (s : Vertices V)
    (vIdx wIdx : Nat) (hG : GInv s.verts) (hv : vIdx < s.verts.length) :
    ((Vertices.addEdge s vIdx wIdx).2.isSome = true ↔
      ∃ u, Reaches s.verts vIdx u ∧
        keyAt s.verts u = keyAt s.verts wIdx) ∧
    (∀ e, (Vertices.addEdge s vIdx wIdx).2 = some e →
      ∃ pth : List Nat, pth ≠ [] ∧ pth.head? = some vIdx ∧
        List.Chain' (fun x y => y ∈ predsAt s.verts x) pth ∧
        (∃ u, pth.getLast? = some u ∧
          keyAt s.verts u = keyAt s.verts wIdx) ∧
        e = DagError.cycle
          (keyAt s.verts wIdx :: pth.map (keyAt s.verts))) :=
  ⟨addEdge_err_iff s vIdx wIdx hG hv, addEdge_chain s vIdx wIdx hG hv⟩

theorem C6_addEdge_error_iff_reachable_witness :
    ((Vertices.addEdge sampleSingle 0 0).2.isSome = true ↔
      ∃ u, Reaches sampleSingle.verts 0 u ∧
        keyAt sampleSingle.verts u = keyAt sampleSingle.verts 0) ∧
    (∀ e, (Vertices.addEdge sampleSingle 0 0).2 = some e →
      ∃ pth : List Nat, pth ≠ [] ∧ pth.head? = some 0 ∧
        List.Chain' (fun x y => y ∈ predsAt sampleSingle.verts x) pth ∧
        (∃ u, pth.getLast? = some u ∧
          keyAt sampleSingle.verts u = keyAt sampleSingle.verts 0) ∧
        e = DagError.cycle
          (keyAt sampleSingle.verts 0 :: pth.map (keyAt sampleSingle.verts))) :=
  C6_addEdge_error_iff_reachable Nat sampleSingle 0 0
    (build_ginv [opA]) (by decide)

/-- C7: idempotent key insertion.  Re-adding a key that is already at
index `i` succeeds and only overwrites that vertex's stored value: the
store size, the key column, the resolved index of the key, every other
value and every predecessor list are unchanged, and the key still
appears exactly once in the traversal output. -/
theorem C7_idempotent_readd (V : Type) (s : Vertices V) (k : String)
    (v2 : Option V) (i : Nat) (hG : GInv s.verts) (hk : k ≠ "")
    (hfind : s.verts.findIdx? (fun vt => vt.key = k) = some i) :
    (DAG.add s k v2 KeyArg.undef KeyArg.undef).2 = none ∧
    (DAG.add s k v2 KeyArg.undef KeyArg.undef).1.verts.length
      = s.verts.length ∧
    (DAG.add s k v2 KeyArg.undef KeyArg.undef).1.verts.findIdx?
      (fun vt => vt.key = k) = some i ∧
    valAt (DAG.add s k v2 KeyArg.undef KeyArg.undef).1.verts i = v2 ∧
    (∀ j, keyAt (DAG.add s k v2 KeyArg.undef KeyArg.undef).1.verts j
      = keyAt s.verts j) ∧
    (∀ j, j ≠ i →
      valAt (DAG.add s k v2 KeyArg.undef KeyArg.undef).1.verts j
        = valAt s.verts j) ∧
    (∀ j, predsAt (DAG.add s k v2 KeyArg.undef KeyArg.undef).1.verts j
      = predsAt s.verts j) ∧
    k ∈ (walkOutput (DAG.add s k v2 KeyArg.undef KeyArg.undef).1).map
      Prod.fst ∧
    ((walkOutput (DAG.add s k v2 KeyArg.undef KeyArg.undef).1).map
      Prod.fst).Nodup := by
  obtain ⟨hi, hkey⟩ := (findKey_iff s.verts k i hG).mp hfind
  have hG2 : GInv (modifyAt (fun vt => { vt with val := v2 }) s.verts i) :=
    setVal_ginv _ _ _ hG
  have hkey2 : keyAt (modifyAt (fun vt => { vt with val := v2 }) s.verts i) i
      = k := by
    rw [keyAt_modifyAt_of (fun vt => { vt with val := v2 })
      (fun vt => rfl) s.verts i i]
    exact hkey
  have hilt2 : i < (modifyAt (fun vt => { vt with val := v2 }) s.verts i).length := by
    rw [modifyAt_length]
    exact hi
  rw [dagAdd_readd s k v2 i hk hfind]
  refine ⟨rfl, modifyAt_length _ _ _, ?_, valAt_setVal_self _ _ _ hi,
    ?_, ?_, ?_, ?_, ?_⟩
  · exact (findKey_iff _ k i hG2).mpr ⟨hilt2, hkey2⟩
  · exact keyAt_modifyAt_of (fun vt => { vt with val := v2 })
      (fun vt => rfl) s.verts i
  · intro j hj
    exact valAt_setVal_ne _ _ _ hj
  · exact predsAt_modifyAt_of (fun vt => { vt with val := v2 })
      (fun vt => rfl) s.verts i
  · have hmem := walk_keys_mem
      (⟨modifyAt (fun vt => { vt with val := v2 }) s.verts i,
        s.stack, s.path, s.result⟩ : Vertices V) hG2 i hilt2
    rw [← hkey2]
    exact hmem
  · exact walk_keys_nodup
      (⟨modifyAt (fun vt => { vt with val := v2 }) s.verts i,
        s.stack, s.path, s.result⟩ : Vertices V) hG2

theorem C7_idempotent_readd_witness :
    (DAG.add sampleSingle "a" (some 2) KeyArg.undef KeyArg.undef).2 = none ∧
    (DAG.add sampleSingle "a" (some 2) KeyArg.undef KeyArg.undef).1.verts.length
      = sampleSingle.verts.length ∧
    (DAG.add sampleSingle "a" (some 2) KeyArg.undef KeyArg.undef).1.verts.findIdx?
      (fun vt => vt.key = "a") = some 0 ∧
    valAt (DAG.add sampleSingle "a" (some 2) KeyArg.undef
      KeyArg.undef).1.verts 0 = some 2 ∧
    (∀ j, keyAt (DAG.add sampleSingle "a" (some 2) KeyArg.undef
      KeyArg.undef).1.verts j = keyAt sampleSingle.verts j) ∧
    (∀ j, j ≠ 0 →
      valAt (DAG.add sampleSingle "a" (some 2) KeyArg.undef
        KeyArg.undef).1.verts j = valAt sampleSingle.verts j) ∧
    (∀ j, predsAt (DAG.add sampleSingle "a" (some 2) KeyArg.undef
      KeyArg.undef).1.verts j = predsAt sampleSingle.verts j) ∧
    "a" ∈ (walkOutput (DAG.add sampleSingle "a" (some 2) KeyArg.undef
      KeyArg.undef).1).map Prod.fst ∧
    ((walkOutput (DAG.add sampleSingle "a" (some 2) KeyArg.undef
      KeyArg.undef).1).map Prod.fst).Nodup :=
  C7_idempotent_readd Nat sampleSingle "a" (some 2) 0
    (build_ginv [opA]) (by decide) (by decide)

/-- C8: forward references.  Naming a missing key `b` only as a `before`
target of `add(a, v, b)` succeeds and creates a placeholder vertex for
`b` at the end of the store, with no stored value; the placeholder shows
up in the traversal output paired with `none`, and a later explicit add
of `b` fills in its value without moving its index, its predecessor
lists, or the store size. -/
theorem C8_forward_reference (V : Type) (s : Vertices V) (a b : String)
    (v : Option V) (hG : GInv s.verts) (ha : a ≠ "") (hb : b ≠ "")
    (hab : a ≠ b)
    (hmiss : s.verts.findIdx? (fun vt => vt.key = b) = none) :
    (DAG.add s a v (KeyArg.one b) KeyArg.undef).2 = none ∧
    ∃ nb, s.verts.length ≤ nb ∧
      (DAG.add s a v (KeyArg.one b) KeyArg.undef).1.verts.findIdx?
        (fun vt => vt.key = b) = some nb ∧
      valAt (DAG.add s a v (KeyArg.one b) KeyArg.undef).1.verts nb = none ∧
      (b, (none : Option V)) ∈
        walkOutput (DAG.add s a v (KeyArg.one b) KeyArg.undef).1 ∧
      (∀ w : Option V,
        (DAG.add (DAG.add s a v (KeyArg.one b) KeyArg.undef).1 b w
            KeyArg.undef KeyArg.undef).2 = none ∧
        (DAG.add (DAG.add s a v (KeyArg.one b) KeyArg.undef).1 b w
            KeyArg.undef KeyArg.undef).1.verts.findIdx?
          (fun vt => vt.key = b) = some nb ∧
        valAt (DAG.add (DAG.add s a v (KeyArg.one b) KeyArg.undef).1 b w
            KeyArg.undef KeyArg.undef).1.verts nb = w ∧
        (∀ j, predsAt (DAG.add (DAG.add s a v (KeyArg.one b)
            KeyArg.undef).1 b w KeyArg.undef KeyArg.undef).1.verts j
          = predsAt (DAG.add s a v (KeyArg.one b) KeyArg.undef).1.verts j) ∧
        (DAG.add (DAG.add s a v (KeyArg.one b) KeyArg.undef).1 b w
            KeyArg.undef KeyArg.undef).1.verts.length
          = (DAG.add s a v (KeyArg.one b) KeyArg.undef).1.verts.length) := by
  obtain ⟨nb, h2none, hGt, hnbge, hnblt, hkeynb, hvalnb⟩ :=
    dagAdd_forward s a b v hG ha hb hab hmiss
  have hfindt : (DAG.add s a v (KeyArg.one b) KeyArg.undef).1.verts.findIdx?
      (fun vt => vt.key = b) = some nb :=
    (findKey_iff _ b nb hGt).mpr ⟨hnblt, hkeynb⟩
  refine ⟨h2none, nb, hnbge, hfindt, hvalnb, ?_, ?_⟩
  · show (b, (none : Option V)) ∈
      (Vertices.walk (DAG.add s a v (KeyArg.one b) KeyArg.undef).1).result.map
        (fun i =>
          (keyAt (Vertices.walk
            (DAG.add s a v (KeyArg.one b) KeyArg.undef).1).verts i,
           valAt (Vertices.walk
            (DAG.add s a v (KeyArg.one b) KeyArg.undef).1).verts i))
    refine List.mem_map.mpr ⟨nb, (walk_result_mem _ hGt nb).mpr hnblt, ?_⟩
    rw [keyAt_eq_of_strip (walk_strip _), valAt_eq_of_strip (walk_strip _),
      hkeynb, hvalnb]
  · intro w
    have hGt2 : GInv (modifyAt (fun vt => { vt with val := w })
        (DAG.add s a v (KeyArg.one b) KeyArg.undef).1.verts nb) :=
      setVal_ginv _ _ _ hGt
    have hkeyt2 : keyAt (modifyAt (fun vt => { vt with val := w })
        (DAG.add s a v (KeyArg.one b) KeyArg.undef).1.verts nb) nb = b := by
      rw [keyAt_modifyAt_of (fun vt => { vt with val := w })
        (fun vt => rfl) _ nb nb]
      exact hkeynb
    rw [dagAdd_readd (DAG.add s a v (KeyArg.one b) KeyArg.undef).1
      b w nb hb hfindt]
    refine ⟨rfl, ?_, valAt_setVal_self _ _ _ hnblt, ?_, modifyAt_length _ _ _⟩
    · exact (findKey_iff _ b nb hGt2).mpr
        ⟨by rw [modifyAt_length]; exact hnblt, hkeyt2⟩
    · exact predsAt_modifyAt_of (fun vt => { vt with val := w })
        (fun vt => rfl) _ nb

theorem C8_forward_reference_witness :
    (DAG.add (emptyDag Nat) "a" (some 1) (KeyArg.one "b") KeyArg.undef).2
      = none ∧
    ∃ nb, (emptyDag Nat).verts.length ≤ nb ∧
      (DAG.add (emptyDag Nat) "a" (some 1) (KeyArg.one "b")
        KeyArg.undef).1.verts.findIdx?
        (fun vt => vt.key = "b") = some nb ∧
      valAt (DAG.add (emptyDag Nat) "a" (some 1) (KeyArg.one "b")
        KeyArg.undef).1.verts nb = none ∧
      ("b", (none : Option Nat)) ∈
        walkOutput (DAG.add (emptyDag Nat) "a" (some 1) (KeyArg.one "b")
          KeyArg.undef).1 ∧
      (∀ w : Option Nat,
        (DAG.add (DAG.add (emptyDag Nat) "a" (some 1) (KeyArg.one "b")
            KeyArg.undef).1 "b" w KeyArg.undef KeyArg.undef).2 = none ∧
        (DAG.add (DAG.add (emptyDag Nat) "a" (some 1) (KeyArg.one "b")
            KeyArg.undef).1 "b" w KeyArg.undef
            KeyArg.undef).1.verts.findIdx?
          (fun vt => vt.key = "b") = some nb ∧
        valAt (DAG.add (DAG.add (emptyDag Nat) "a" (some 1) (KeyArg.one "b")
            KeyArg.undef).1 "b" w KeyArg.undef KeyArg.undef).1.verts nb
          = w ∧
        (∀ j, predsAt (DAG.add (DAG.add (emptyDag Nat) "a" (some 1)
            (KeyArg.one "b") KeyArg.undef).1 "b" w KeyArg.undef
            KeyArg.undef).1.verts j
          = predsAt (DAG.add (emptyDag Nat) "a" (some 1) (KeyArg.one "b")
            KeyArg.undef).1.verts j) ∧
        (DAG.add (DAG.add (emptyDag Nat) "a" (some 1) (KeyArg.one "b")
            KeyArg.undef).1 "b" w KeyArg.undef
            KeyArg.undef).1.verts.length
          = (DAG.add (emptyDag Nat) "a" (some 1) (KeyArg.one "b")
            KeyArg.undef).1.verts.length) :=
  C8_forward_reference Nat (emptyDag Nat) "a" "b" (some 1) ginv_empty
    (by decide) (by decide) (by decide) rfl

/-- C9: re-adding without a value erases the payload.  The value field
is assigned unconditionally on every `add` call, so re-adding a stored
key with the value argument omitted (JavaScript `undefined`, modelled as
`none`) succeeds and overwrites the previously stored value with
`none`. -/
theorem C9_readd_without_value_erases (V : Type) (s : Vertices V)
    (k : String) (i : Nat) (v0 : V) (hG : GInv s.verts) (hk : k ≠ "")
    (hfind : s.verts.findIdx? (fun vt => vt.key = k) = some i)
    (hval : valAt s.verts i = some v0) :
    (DAG.add s k none KeyArg.undef KeyArg.undef).2 = none ∧
    valAt (DAG.add s k none KeyArg.undef KeyArg.undef).1.verts i = none := by
  obtain ⟨hi, _⟩ := (findKey_iff s.verts k i hG).mp hfind
  rw [dagAdd_readd s k none i hk hfind]
  exact ⟨rfl, valAt_setVal_self _ _ _ hi⟩

theorem C9_readd_without_value_erases_witness :
    (DAG.add sampleSingle "a" none KeyArg.undef KeyArg.undef).2 = none ∧
    valAt (DAG.add sampleSingle "a" none KeyArg.undef
      KeyArg.undef).1.verts 0 = none :=
  C9_readd_without_value_erases Nat sampleSingle "a" 0 1
    (build_ginv [opA]) (by decide) (by decide) (by decide)

/-- C10: inconsistent empty-string constraint handling.  Passing the
empty string directly as the single `before` argument is silently
ignored (the call behaves exactly like one without the constraint),
while an empty string inside a `before` array reaches the internal key
resolver and makes the call throw its invalid-key error. -/
theorem C10_empty_string_inconsistency (V : Type) (s : Vertices V)
    (k : String) (v : Option V) (hk : k ≠ "") :
    DAG.add s k v (KeyArg.one "") KeyArg.undef
      = DAG.add s k v KeyArg.undef KeyArg.undef ∧
    (DAG.add s k v (KeyArg.many [""]) KeyArg.undef).2
      = some (DagError.invalidKey "missing key") := by
  obtain ⟨s1, i, hadd⟩ : ∃ s1 i, Vertices.add s k = ((s1, i), none) := by
    unfold Vertices.add
    rw [if_neg hk]
    cases hf : s.verts.findIdx? (fun vt => vt.key = k) with
    | some i => exact ⟨s, i, rfl⟩
    | none => exact ⟨_, _, rfl⟩
  constructor
  · unfold DAG.add
    rw [if_neg hk, if_neg hk, hadd]
    rfl
  · unfold DAG.add
    rw [if_neg hk, hadd]
    rfl

theorem C10_empty_string_inconsistency_witness :
    DAG.add (emptyDag Nat) "a" (some 1) (KeyArg.one "") KeyArg.undef
      = DAG.add (emptyDag Nat) "a" (some 1) KeyArg.undef KeyArg.undef ∧
    (DAG.add (emptyDag Nat) "a" (some 1) (KeyArg.many [""]) KeyArg.undef).2
      = some (DagError.invalidKey "missing key") :=
  C10_empty_string_inconsistency Nat (emptyDag Nat) "a" (some 1) (by decide)

end DagMap
